import Mathlib

/-!
Verification development for the PGN streaming reader (`src/reader.rs`) and
its filtering consumer (`filter/filter.rs`).

Bytes are modelled as `Nat` (they are only ever compared for equality).  The
underlying `io::Read` source is modelled as a list of read outcomes: each call
to `read` consumes the next outcome, which is either a chunk of bytes (a
return of `Ok(n)` delivering those `n` bytes) or an I/O error; an exhausted
list models a source that keeps returning `Ok(0)` (end of input).

Every Rust loop is embedded as a fuel-indexed structural recursion; the
corresponding top-level function supplies a fuel that provably suffices
(`*_stable` lemmas below show the result is the same for every sufficient
fuel), so the definitions are total, computable and faithful to the loops.

Visitor calls are recorded in an event trace so that claims about which hooks
fire, and in which order, can be stated and proved.
-/

namespace Pgn

abbrev Byte := Nat

/-- `const BUFFER_SIZE: usize = 8192` (reader.rs line 43). -/
def BUFFER_SIZE : Nat := 8192

/-- byte constants used by the tokenizer -/
def lf : Byte := 10
def tab : Byte := 9
def cr : Byte := 13
def spc : Byte := 32
def percent : Byte := 37
def quote : Byte := 34
def bslash : Byte := 92
def lbracket : Byte := 91
def rbracket : Byte := 93
def lbrace : Byte := 123
def rbrace : Byte := 125
def semicolon : Byte := 59

/-- One outcome of a call to `Read::read` on the underlying byte source. -/
inductive ReadEvent
  | chunk (bs : List Byte)
  | ioError (e : Nat)
deriving DecidableEq, Repr

/-- The state of `PgnReader`: `inner` is the byte source (remaining read
outcomes) and `buffer` the unconsumed bytes of the `SliceDeque`. -/
structure Reader where
  inner : List ReadEvent
  buffer : List Byte
deriving DecidableEq, Repr

def evWeight : ReadEvent → Nat
  | .chunk bs => 1 + bs.length
  | .ioError _ => 1

def sourceWeight (src : List ReadEvent) : Nat := (src.map evWeight).sum

/-- Termination measure: total weight of pending source events plus buffered
bytes.  Every loop iteration of the reader strictly decreases it (up to the
per-function head adjustments used in the stability lemmas). -/
def Reader.wt (s : Reader) : Nat := sourceWeight s.inner + s.buffer.length

/-- The `while self.buffer.len() < BUFFER_SIZE` read loop inside
`fill_buffer` (reader.rs lines 58-72).  Returns the new buffer contents, the
remaining source and an error if a read failed.  The `ptr::write_bytes`
zeroing of the free tail slice has no observable effect here: the bytes
exposed afterwards are exactly the ones the read delivered. -/
def fillLoop : List ReadEvent → List Byte → List Byte × List ReadEvent × Except Nat Unit
  | src, buf =>
    if buf.length < BUFFER_SIZE then
      match src with
      | [] => (buf, [], .ok ())
      | .ioError e :: rest => (buf, rest, .error e)
      | .chunk [] :: rest => (buf, rest, .ok ())
      | .chunk (b :: bs) :: rest => fillLoop rest (buf ++ b :: bs)
    else
      (buf, src, .ok ())

/-- `fn fill_buffer(&mut self) -> io::Result<bool>` (reader.rs lines 57-75). -/
def fill_buffer (s : Reader) : Reader × Except Nat Bool :=
  match fillLoop s.inner s.buffer with
  | (buf, src, .ok ()) => (⟨src, buf⟩, .ok (!buf.isEmpty))
  | (buf, src, .error e) => (⟨src, buf⟩, .error e)

/-- `fn skip_bom(&mut self)` (reader.rs lines 77-84): consume the UTF-8
byte-order mark when it forms the current head of the (filled) buffer. -/
def skip_bom (s : Reader) : Reader × Except Nat Unit :=
  match fill_buffer s with
  | (s', .error e) => (s', .error e)
  | (s', .ok _) =>
    if s'.buffer.take 3 = [0xef, 0xbb, 0xbf] then
      ({ s' with buffer := s'.buffer.drop 3 }, .ok ())
    else
      (s', .ok ())

/-- `memchr::memchr`: index of the first occurrence of `n`. -/
def memchr (n : Byte) : List Byte → Option Nat
  | [] => none
  | b :: bs => if b = n then some 0 else (memchr n bs).map (· + 1)

/-- `memchr::memchr2`: index of the first occurrence of `n₁` or `n₂`. -/
def memchr2 (n₁ n₂ : Byte) : List Byte → Option Nat
  | [] => none
  | b :: bs => if b = n₁ ∨ b = n₂ then some 0 else (memchr2 n₁ n₂ bs).map (· + 1)

/-- `memchr::memchr3`: index of the first occurrence of `n₁`, `n₂` or `n₃`. -/
def memchr3 (n₁ n₂ n₃ : Byte) : List Byte → Option Nat
  | [] => none
  | b :: bs =>
    if b = n₁ ∨ b = n₂ ∨ b = n₃ then some 0 else (memchr3 n₁ n₂ n₃ bs).map (· + 1)

/-- Fueled form of `fn skip_until(&mut self, needle: u8)` (reader.rs
lines 86-97). -/
def skip_untilF : Nat → Byte → Reader → Reader × Except Nat Unit
  | 0, _, s => (s, .ok ())
  | f + 1, needle, s =>
    match fill_buffer s with
    | (s', .error e) => (s', .error e)
    | (s', .ok false) => (s', .ok ())
    | (s', .ok true) =>
      match memchr needle s'.buffer with
      | some pos => ({ s' with buffer := s'.buffer.drop (pos + 1) }, .ok ())
      | none => skip_untilF f needle { s' with buffer := [] }

/-- `fn skip_until` with its provably sufficient fuel. -/
def skip_until (needle : Byte) (s : Reader) : Reader × Except Nat Unit :=
  skip_untilF (s.wt + 1) needle s

mutual

/-- Fueled outer `while self.fill_buffer()?` loop of `fn skip_whitespace`
(reader.rs lines 99-114). -/
def skip_whitespaceF : Nat → Reader → Reader × Except Nat Unit
  | 0, s => (s, .ok ())
  | f + 1, s =>
    match fill_buffer s with
    | (s', .error e) => (s', .error e)
    | (s', .ok false) => (s', .ok ())
    | (s', .ok true) => wsLoopF f s'

/-- Fueled inner `while let Some(ch) = self.buffer.pop_front()` loop of
`fn skip_whitespace`. -/
def wsLoopF : Nat → Reader → Reader × Except Nat Unit
  | 0, s => (s, .ok ())
  | f + 1, s =>
    match s.buffer with
    | [] => skip_whitespaceF f s
    | c :: bs =>
      if c = spc ∨ c = tab ∨ c = cr ∨ c = lf then
        wsLoopF f { s with buffer := bs }
      else if c = percent then
        match skip_until lf { s with buffer := bs } with
        | (s', .error e) => (s', .error e)
        | (s', .ok ()) => wsLoopF f s'
      else
        (s, .ok ())

end

/-- `fn skip_whitespace` with its provably sufficient fuel. -/
def skip_whitespace (s : Reader) : Reader × Except Nat Unit :=
  skip_whitespaceF (3 * s.wt + 3) s

mutual

/-- Fueled outer loop of `fn skip_ket` (reader.rs lines 116-132). -/
def skip_ketF : Nat → Reader → Reader × Except Nat Unit
  | 0, s => (s, .ok ())
  | f + 1, s =>
    match fill_buffer s with
    | (s', .error e) => (s', .error e)
    | (s', .ok false) => (s', .ok ())
    | (s', .ok true) => ketLoopF f s'

/-- Fueled inner loop of `fn skip_ket`. -/
def ketLoopF : Nat → Reader → Reader × Except Nat Unit
  | 0, s => (s, .ok ())
  | f + 1, s =>
    match s.buffer with
    | [] => skip_ketF f s
    | c :: bs =>
      if c = spc ∨ c = tab ∨ c = cr ∨ c = rbracket then
        ketLoopF f { s with buffer := bs }
      else if c = percent then
        match skip_until lf { s with buffer := bs } with
        | (s', .error e) => (s', .error e)
        | (s', .ok ()) => ketLoopF f s'
      else if c = lf then
        ({ s with buffer := bs }, .ok ())
      else
        (s, .ok ())

end

/-- `fn skip_ket` with its provably sufficient fuel. -/
def skip_ket (s : Reader) : Reader × Except Nat Unit :=
  skip_ketF (3 * s.wt + 3) s

/-- Fueled form of the unnamed header-value scan loop inside `read_headers`
(reader.rs lines 160-179).  Arguments: the buffer contents (after the `[` was
popped) and the running `right_quote` position; result: the final
`(right_quote, consumed)` pair produced by the two `break` forms. -/
def scanValueF : Nat → List Byte → Nat → Nat × Nat
  | 0, buf, _ => (buf.length, buf.length)
  | f + 1, buf, rq =>
    match memchr3 bslash quote lf (buf.drop rq) with
    | some delta =>
      if buf.getD (rq + delta) 0 = quote then (rq + delta, rq + delta + 1)
      else if buf.getD (rq + delta) 0 = lf then (rq + delta, rq + delta)
      else scanValueF f buf (min (rq + delta + 2) buf.length)
    | none => (buf.length, buf.length)

/-- The header-value scan loop with its provably sufficient fuel. -/
def scanValue (buf : List Byte) (rq : Nat) : Nat × Nat :=
  scanValueF (buf.length + 1 - rq) buf rq

/-- Events emitted to the visitor, in document order.  The constructors for
the move-text hooks (`san` … `outcome`) are included so that their absence
from every trace can be stated; the reader never emits them. -/
inductive Event
  | beginGame
  | beginHeaders
  | header (key value : List Byte)
  | endHeaders
  | san
  | nag
  | comment
  | beginVariation
  | endVariation
  | outcome
  | endGame
deriving DecidableEq, Repr

/-- The `Visitor` trait (reader.rs lines 8-25), as a record of hook
implementations over a visitor state `σ` producing a per-game result `ρ`.
`Skip(b)` is modelled as the `Bool` `b`.  The move-text hooks are part of the
protocol but are never called by the reader; payload-free stand-ins record
their presence. -/
structure Visitor (σ ρ : Type) where
  begin_game : σ → σ
  begin_headers : σ → σ
  header : σ → List Byte → List Byte → σ
  end_headers : σ → σ × Bool
  san : σ → σ
  nag : σ → σ
  comment : σ → List Byte → σ
  begin_variation : σ → σ × Bool
  end_variation : σ → σ
  outcome : σ → σ
  end_game : σ → σ × ρ

/-- `struct SkipVisitor` (reader.rs lines 27-35): `end_headers` and
`begin_variation` return `Skip(true)`, everything else is the default. -/
def SkipVisitor : Visitor Unit Unit where
  begin_game := id
  begin_headers := id
  header := fun v _ _ => v
  end_headers := fun v => (v, true)
  san := id
  nag := id
  comment := fun v _ => v
  begin_variation := fun v => (v, true)
  end_variation := id
  outcome := id
  end_game := fun v => (v, ())

/-- Fueled form of `fn read_headers` (reader.rs lines 134-196), threading the
visitor state `v` and the trace `tr` of emitted events. -/
def read_headersF (V : Visitor σ ρ) :
    Nat → Reader → σ → List Event → (Reader × σ × List Event) × Except Nat Unit
  | 0, s, v, tr => ((s, v, tr), .ok ())
  | f + 1, s, v, tr =>
    match fill_buffer s with
    | (s', .error e) => ((s', v, tr), .error e)
    | (s', .ok false) => ((s', v, tr), .ok ())
    | (s', .ok true) =>
      match s'.buffer with
      | [] => ((s', v, tr), .ok ())
      | c :: bs =>
        if c = lbracket then
          match memchr2 quote lf bs with
          | none =>
            match skip_until lf { s' with buffer := bs } with
            | (s₂, .error e) => ((s₂, v, tr), .error e)
            | (s₂, .ok ()) => read_headersF V f s₂ v tr
          | some i =>
            if bs.getD i 0 = quote then
              let nameEnd := if 0 < i ∧ bs.getD (i - 1) 0 = spc then i - 1 else i
              let vstart := i + 1
              let rc := scanValue bs vstart
              let key := bs.take nameEnd
              let value := (bs.drop vstart).take (rc.1 - vstart)
              let v' := V.header v key value
              let tr' := tr ++ [Event.header key value]
              match skip_ket { s' with buffer := bs.drop rc.2 } with
              | (s₃, .error e) => ((s₃, v', tr'), .error e)
              | (s₃, .ok ()) => read_headersF V f s₃ v' tr'
            else
              read_headersF V f { s' with buffer := bs.drop (i + 1) }
                (V.header v (bs.take i) []) (tr ++ [Event.header (bs.take i) []])
        else if c = percent then
          match skip_until lf { s' with buffer := bs } with
          | (s₂, .error e) => ((s₂, v, tr), .error e)
          | (s₂, .ok ()) => read_headersF V f s₂ v tr
        else
          ((s', v, tr), .ok ())

/-- `fn read_headers` with its provably sufficient fuel. -/
def read_headers (V : Visitor σ ρ) (s : Reader) (v : σ) (tr : List Event) :
    (Reader × σ × List Event) × Except Nat Unit :=
  read_headersF V (s.wt + 1) s v tr

/-- Fueled form of `fn skip_movetext` (reader.rs lines 198-230).  In the
`b'\n'` → `Some(b'%')` branch the source calls `skip_until` without `?`
(line 210), discarding a possible I/O error; the embedding keeps the state
and drops the error in exactly the same way. -/
def skip_movetextF : Nat → Reader → Reader × Except Nat Unit
  | 0, s => (s, .ok ())
  | f + 1, s =>
    match fill_buffer s with
    | (s', .error e) => (s', .error e)
    | (s', .ok false) => (s', .ok ())
    | (s', .ok true) =>
      match s'.buffer with
      | [] => (s', .ok ())
      | c :: bs =>
        if c = lbrace then
          match skip_until rbrace { s' with buffer := bs } with
          | (s₂, .error e) => (s₂, .error e)
          | (s₂, .ok ()) => skip_movetextF f s₂
        else if c = semicolon then
          match skip_until lf { s' with buffer := bs } with
          | (s₂, .error e) => (s₂, .error e)
          | (s₂, .ok ()) => skip_movetextF f { s₂ with buffer := lf :: s₂.buffer }
        else if c = lf then
          match bs with
          | b :: bs₂ =>
            if b = percent then
              let s₂ := (skip_until lf { s' with buffer := bs₂ }).1
              skip_movetextF f { s₂ with buffer := lf :: s₂.buffer }
            else if b = lf then
              ({ s' with buffer := bs₂ }, .ok ())
            else if b = lbracket then
              ({ s' with buffer := lbracket :: bs₂ }, .ok ())
            else
              skip_movetextF f { s' with buffer := bs₂ }
          | [] => skip_movetextF f { s' with buffer := [] }
        else
          let consumed := (memchr3 lf lbrace semicolon bs).getD bs.length
          skip_movetextF f { s' with buffer := bs.drop consumed }

/-- `fn skip_movetext` with its provably sufficient fuel. -/
def skip_movetext (s : Reader) : Reader × Except Nat Unit :=
  skip_movetextF (2 * s.wt + 2) s

/-- `pub fn read_game` (reader.rs lines 232-252).  Returns the final reader
state, the final visitor state, the trace of emitted events, and the
result: `.ok none` models `Ok(None)`, `.ok (some r)` models
`Ok(Some(r))`, `.error e` models `Err(e)`. -/
def read_game (V : Visitor σ ρ) (v : σ) (s : Reader) :
    (Reader × σ × List Event) × Except Nat (Option ρ) :=
  match skip_bom s with
  | (s₁, .error e) => ((s₁, v, []), .error e)
  | (s₁, .ok ()) =>
    match skip_whitespace s₁ with
    | (s₂, .error e) => ((s₂, v, []), .error e)
    | (s₂, .ok ()) =>
      match fill_buffer s₂ with
      | (s₃, .error e) => ((s₃, v, []), .error e)
      | (s₃, .ok false) => ((s₃, v, []), .ok none)
      | (s₃, .ok true) =>
        let v₁ := V.begin_game v
        let v₂ := V.begin_headers v₁
        let tr₀ := [Event.beginGame, Event.beginHeaders]
        match read_headers V s₃ v₂ tr₀ with
        | ((s₄, v₃, tr₁), .error e) => ((s₄, v₃, tr₁), .error e)
        | ((s₄, v₃, tr₁), .ok ()) =>
          let ehs := V.end_headers v₃
          let tr₂ := tr₁ ++ [Event.endHeaders]
          match (if ehs.2 = false then skip_movetext s₄ else skip_movetext s₄) with
          | (s₅, .error e) => ((s₅, ehs.1, tr₂), .error e)
          | (s₅, .ok ()) =>
            match skip_whitespace s₅ with
            | (s₆, .error e) => ((s₆, ehs.1, tr₂), .error e)
            | (s₆, .ok ()) =>
              let egr := V.end_game ehs.1
              ((s₆, egr.1, tr₂ ++ [Event.endGame]), .ok (some egr.2))

/-- `FilteringVisitor::end_headers` (filter/filter.rs lines 70-78), as a
function of the `should_write` flag: the source returns `Skip(false)` when
`should_write` is false and `Skip(true)` otherwise. -/
def FilteringVisitor.end_headers (should_write : Bool) : Bool :=
  if !should_write then false else true

/-- Convert an ASCII string literal to its byte list. -/
def bytes (s : String) : List Byte := s.data.map Char.toNat

instance {ε α : Type} [DecidableEq ε] [DecidableEq α] : DecidableEq (Except ε α) := fun x y =>
  match x, y with
  | .error a, .error b =>
    if h : a = b then isTrue (by rw [h]) else isFalse (by intro hh; cases hh; exact h rfl)
  | .ok a, .ok b =>
    if h : a = b then isTrue (by rw [h]) else isFalse (by intro hh; cases hh; exact h rfl)
  | .error _, .ok _ => isFalse (by intro hh; cases hh)
  | .ok _, .error _ => isFalse (by intro hh; cases hh)

/-- A content byte that the tokenizer treats as ordinary text in every phase:
ASCII, not a delimiter, not whitespace, not a comment starter. -/
def Plain (c : Byte) : Prop :=
  c < 128 ∧ c ≠ quote ∧ c ≠ lf ∧ c ≠ bslash ∧ c ≠ lbracket ∧ c ≠ lbrace ∧
    c ≠ semicolon ∧ c ≠ percent ∧ c ≠ spc ∧ c ≠ tab ∧ c ≠ cr

instance : DecidablePred Plain := fun c => by
  unfold Plain
  infer_instance

/-- Replace a visitor's `end_headers` skip signal by the constant `b`,
leaving every other hook (and the state evolution of `end_headers`)
unchanged.  Used to state that the reader's behaviour does not depend on
the returned signal. -/
def Visitor.withSkip {σ ρ : Type} (V : Visitor σ ρ) (b : Bool) : Visitor σ ρ :=
  { V with end_headers := fun v => ((V.end_headers v).1, b) }

/-- The visitor state after the `header` hook has been applied to a list of
tag/value pairs in order. -/
def foldHeaders {σ ρ : Type} (V : Visitor σ ρ) (v : σ) (hs : List (List Byte × List Byte)) : σ :=
  hs.foldl (fun v p => V.header v p.1 p.2) v

/-- The bytes of one well-formed header line: `[K "V"]` followed by a
line feed. -/
def headerLine (k w : List Byte) : List Byte :=
  lbracket :: k ++ spc :: quote :: w ++ quote :: rbracket :: [lf]

/-- The bytes of one well-formed game: zero or more header lines followed by
one line of move text and its terminating line feed. -/
def gameBytes (hs : List (List Byte × List Byte)) (m : List Byte) : List Byte :=
  (hs.map fun p => headerLine p.1 p.2).join ++ m ++ [lf]

/-- The events corresponding to the move-text hooks of the protocol
(`san`, `nag`, `comment`, `begin_variation`, `end_variation`, `outcome`). -/
def Event.isMoveTextHook : Event → Bool
  | .san | .nag | .comment | .beginVariation | .endVariation | .outcome => true
  | _ => false

/-! ### Weight lemmas for the buffer-fill loop -/

theorem sourceWeight_cons (ev : ReadEvent) (rest : List ReadEvent) :
    sourceWeight (ev :: rest) = evWeight ev + sourceWeight rest := by
  simp [sourceWeight]

theorem fillLoop_state (src : List ReadEvent) (buf : List Byte) :
    ((fillLoop src buf).1 = buf ∧ (fillLoop src buf).2.1 = src) ∨
      sourceWeight (fillLoop src buf).2.1 + (fillLoop src buf).1.length + 1 ≤
        sourceWeight src + buf.length := by
  induction src generalizing buf with
  | nil =>
    rw [fillLoop.eq_def]
    dsimp only
    by_cases hlt : buf.length < BUFFER_SIZE
    · rw [if_pos hlt]
      exact Or.inl ⟨rfl, rfl⟩
    · rw [if_neg hlt]
      exact Or.inl ⟨rfl, rfl⟩
  | cons ev rest ih =>
    rw [fillLoop.eq_def]
    dsimp only
    by_cases hlt : buf.length < BUFFER_SIZE
    · rw [if_pos hlt]
      match ev with
      | .ioError e =>
        right
        simp [sourceWeight_cons, evWeight]
        omega
      | .chunk [] =>
        right
        simp [sourceWeight_cons, evWeight]
        omega
      | .chunk (b :: bs) =>
        right
        rcases ih (buf ++ b :: bs) with ⟨h1, h2⟩ | h
        · show sourceWeight (fillLoop rest (buf ++ b :: bs)).2.1 +
            (fillLoop rest (buf ++ b :: bs)).1.length + 1 ≤ _
          rw [h1, h2]
          simp [sourceWeight_cons, evWeight]
          omega
        · show sourceWeight (fillLoop rest (buf ++ b :: bs)).2.1 +
            (fillLoop rest (buf ++ b :: bs)).1.length + 1 ≤ _
          simp [sourceWeight_cons, evWeight] at h ⊢
          omega
    · rw [if_neg hlt]
      exact Or.inl ⟨rfl, rfl⟩

theorem fillLoop_append (src : List ReadEvent) (buf : List Byte) :
    ∃ ext, (fillLoop src buf).1 = buf ++ ext := by
  induction src generalizing buf with
  | nil =>
    rw [fillLoop.eq_def]
    dsimp only
    by_cases hlt : buf.length < BUFFER_SIZE
    · rw [if_pos hlt]; exact ⟨[], by simp⟩
    · rw [if_neg hlt]; exact ⟨[], by simp⟩
  | cons ev rest ih =>
    rw [fillLoop.eq_def]
    dsimp only
    by_cases hlt : buf.length < BUFFER_SIZE
    · rw [if_pos hlt]
      match ev with
      | .ioError e => exact ⟨[], by simp⟩
      | .chunk [] => exact ⟨[], by simp⟩
      | .chunk (b :: bs) =>
        obtain ⟨ext, hext⟩ := ih (buf ++ b :: bs)
        exact ⟨b :: bs ++ ext, by rw [show ((b :: bs : List Byte) ++ ext) = b :: bs ++ ext from rfl]; simpa using hext⟩
    · rw [if_neg hlt]
      exact ⟨[], by simp⟩

theorem fill_state {s s' : Reader} {r : Except Nat Bool}
    (h : fill_buffer s = (s', r)) : s' = s ∨ s'.wt + 1 ≤ s.wt := by
  unfold fill_buffer at h
  rcases hfl : fillLoop s.inner s.buffer with ⟨buf, src, err⟩
  rcases fillLoop_state s.inner s.buffer with ⟨h1, h2⟩ | hlt
  · rw [hfl] at h h1 h2
    simp at h1 h2
    left
    match err with
    | .ok () =>
      simp [hfl] at h
      cases s
      simp_all [Reader.wt]
    | .error e =>
      simp [hfl] at h
      cases s
      simp_all [Reader.wt]
  · rw [hfl] at hlt h
    right
    match err with
    | .ok () =>
      simp [hfl] at h hlt
      simp [← h.1, Reader.wt]
      omega
    | .error e =>
      simp [hfl] at h hlt
      simp [← h.1, Reader.wt]
      omega

theorem fill_wt {s s' : Reader} {r : Except Nat Bool}
    (h : fill_buffer s = (s', r)) : s'.wt ≤ s.wt := by
  rcases fill_state h with rfl | hlt
  · exact le_refl _
  · omega

theorem fill_append {s s' : Reader} {r : Except Nat Bool}
    (h : fill_buffer s = (s', r)) : ∃ ext, s'.buffer = s.buffer ++ ext := by
  unfold fill_buffer at h
  obtain ⟨ext, hext⟩ := fillLoop_append s.inner s.buffer
  rcases hfl : fillLoop s.inner s.buffer with ⟨buf, src, err⟩
  rw [hfl] at h hext
  match err with
  | .ok () =>
    simp [hfl] at h hext
    exact ⟨ext, by rw [← h.1]; exact hext⟩
  | .error e =>
    simp [hfl] at h hext
    exact ⟨ext, by rw [← h.1]; exact hext⟩

theorem fill_true_ne {s s' : Reader}
    (h : fill_buffer s = (s', .ok true)) : s'.buffer ≠ [] := by
  unfold fill_buffer at h
  rcases hfl : fillLoop s.inner s.buffer with ⟨buf, src, err⟩
  rw [hfl] at h
  match err with
  | .ok () =>
    simp [hfl] at h
    obtain ⟨h1, h2⟩ := h
    rw [← h1]
    simpa using h2
  | .error e => simp [hfl] at h

theorem fill_empty_progress {s s' : Reader}
    (h : fill_buffer s = (s', .ok true)) (hb : s.buffer = []) :
    s'.wt + 1 ≤ s.wt := by
  rcases fill_state h with rfl | hlt
  · exact absurd hb (fill_true_ne h)
  · exact hlt

/-! ### `skip_until`: weight bound and fuel stability -/

theorem skip_untilF_wt (f : Nat) (n : Byte) (s : Reader) :
    (skip_untilF f n s).1.wt ≤ s.wt := by
  induction f generalizing s with
  | zero => simp [skip_untilF]
  | succ f ih =>
    simp only [skip_untilF]
    rcases hf : fill_buffer s with ⟨s', r⟩
    have hwt := fill_wt hf
    cases r with
    | error e => exact hwt
    | ok b =>
      cases b
      · exact hwt
      · dsimp only
        rcases hm : memchr n s'.buffer with _ | pos
        · refine le_trans (ih _) ?_
          simp only [Reader.wt] at hwt ⊢
          simp
          omega
        · simp only [Reader.wt] at hwt ⊢
          simp
          omega

theorem skip_untilF_stable (f : Nat) (n : Byte) (s : Reader) (h : s.wt + 1 ≤ f) :
    skip_untilF (f + 1) n s = skip_untilF f n s := by
  induction f generalizing s with
  | zero => omega
  | succ g ih =>
    conv_lhs => rw [skip_untilF.eq_def]
    conv_rhs => rw [skip_untilF.eq_def]
    dsimp only
    rcases hf : fill_buffer s with ⟨s', r⟩
    cases r with
    | error e => rfl
    | ok b =>
      cases b
      · rfl
      · dsimp only
        rcases hm : memchr n s'.buffer with _ | pos
        · have hne := fill_true_ne hf
          have hwt := fill_wt hf
          refine ih _ ?_
          have hlen : 1 ≤ s'.buffer.length := by
            cases hb : s'.buffer with
            | nil => exact absurd hb hne
            | cons x xs => simp [hb]
          simp only [Reader.wt] at hwt h ⊢
          simp
          omega
        · rfl

theorem skip_untilF_add (k : Nat) (n : Byte) (s : Reader) :
    skip_untilF (s.wt + 1 + k) n s = skip_until n s := by
  induction k with
  | zero => rfl
  | succ k ih =>
    rw [← Nat.add_assoc (s.wt + 1) k 1]
    rw [skip_untilF_stable _ _ _ (by omega)]
    exact ih

theorem skip_untilF_eq {f : Nat} {n : Byte} {s : Reader} (h : s.wt + 1 ≤ f) :
    skip_untilF f n s = skip_until n s := by
  obtain ⟨k, rfl⟩ : ∃ k, f = s.wt + 1 + k := ⟨f - (s.wt + 1), by omega⟩
  exact skip_untilF_add k n s

theorem skip_until_wt {n : Byte} {s s' : Reader} {r : Except Nat Unit}
    (h : skip_until n s = (s', r)) : s'.wt ≤ s.wt := by
  have hw := skip_untilF_wt (s.wt + 1) n s
  rw [show skip_untilF (s.wt + 1) n s = skip_until n s from rfl, h] at hw
  exact hw

/-! ### `skip_whitespace` and `skip_ket`: weight bounds and fuel stability -/

theorem ws_wt (f : Nat) :
    (∀ s, (skip_whitespaceF f s).1.wt ≤ s.wt) ∧
      (∀ s, (wsLoopF f s).1.wt ≤ s.wt) := by
  induction f with
  | zero => constructor <;> intro s <;> simp [skip_whitespaceF, wsLoopF]
  | succ f ih =>
    constructor
    · intro s
      simp only [skip_whitespaceF]
      rcases hf : fill_buffer s with ⟨s', r⟩
      have hwt := fill_wt hf
      cases r with
      | error e => exact hwt
      | ok b =>
        cases b
        · exact hwt
        · exact le_trans (ih.2 s') hwt
    · intro s
      simp only [wsLoopF]
      rcases hb : s.buffer with _ | ⟨c, bs⟩
      · exact ih.1 s
      · dsimp only
        by_cases hws : c = spc ∨ c = tab ∨ c = cr ∨ c = lf
        · simp only [if_pos hws]
          refine le_trans (ih.2 _) ?_
          simp only [Reader.wt, hb, List.length_cons]
          omega
        · simp only [if_neg hws]
          by_cases hpc : c = percent
          · simp only [if_pos hpc]
            rcases hsu : skip_until lf { s with buffer := bs } with ⟨s'', r⟩
            have h2 := skip_until_wt hsu
            have h3 : ({ s with buffer := bs } : Reader).wt ≤ s.wt := by
              simp only [Reader.wt, hb, List.length_cons]
              omega
            cases r with
            | error e => exact le_trans h2 h3
            | ok u =>
              cases u
              exact le_trans (ih.2 s'') (le_trans h2 h3)
          · simp only [if_neg hpc]
            exact le_refl _

theorem ws_stable (f : Nat) :
    (∀ s, 3 * s.wt + (if s.buffer = [] then 1 else 3) ≤ f →
        skip_whitespaceF (f + 1) s = skip_whitespaceF f s) ∧
      (∀ s, 3 * s.wt + (if s.buffer = [] then 2 else 1) ≤ f →
        wsLoopF (f + 1) s = wsLoopF f s) := by
  induction f using Nat.strong_induction_on with
  | _ f ih =>
    constructor
    · intro s hs
      cases f with
      | zero => exfalso; split at hs <;> omega
      | succ g =>
        conv_lhs => rw [skip_whitespaceF.eq_def]
        conv_rhs => rw [skip_whitespaceF.eq_def]
        dsimp only
        rcases hf : fill_buffer s with ⟨s', r⟩
        cases r with
        | error e => rfl
        | ok b =>
          cases b
          · rfl
          · have hne := fill_true_ne hf
            have h1 := fill_wt hf
            refine (ih g (by omega)).2 s' ?_
            rw [if_neg hne]
            by_cases hb : s.buffer = []
            · have h2 := fill_empty_progress hf hb
              rw [if_pos hb] at hs
              omega
            · rw [if_neg hb] at hs
              omega
    · intro s hs
      cases f with
      | zero => exfalso; split at hs <;> omega
      | succ g =>
        conv_lhs => rw [wsLoopF.eq_def]
        conv_rhs => rw [wsLoopF.eq_def]
        dsimp only
        rcases hb : s.buffer with _ | ⟨c, bs⟩
        · refine (ih g (by omega)).1 s ?_
          rw [if_pos hb] at hs ⊢
          omega
        · dsimp only
          have hsne : ¬s.buffer = [] := by rw [hb]; simp
          rw [if_neg hsne] at hs
          have hswt : s.wt = sourceWeight s.inner + (bs.length + 1) := by
            simp only [Reader.wt, hb, List.length_cons]
          by_cases hws : c = spc ∨ c = tab ∨ c = cr ∨ c = lf
          · simp only [if_pos hws]
            refine (ih g (by omega)).2 _ ?_
            simp only [Reader.wt]
            have hite : ((if bs = [] then 2 else 1) : Nat) ≤ 2 := by split <;> omega
            omega
          · simp only [if_neg hws]
            by_cases hpc : c = percent
            · simp only [if_pos hpc]
              rcases hsu : skip_until lf { s with buffer := bs } with ⟨s'', r⟩
              cases r with
              | error e => rfl
              | ok u =>
                cases u
                refine (ih g (by omega)).2 s'' ?_
                have h2 := skip_until_wt hsu
                have h3 : ({ s with buffer := bs } : Reader).wt = sourceWeight s.inner + bs.length := by
                  simp only [Reader.wt]
                have hite : ((if s''.buffer = [] then 2 else 1) : Nat) ≤ 2 := by split <;> omega
                omega
            · simp only [if_neg hpc]

theorem skip_whitespaceF_add (k : Nat) (s : Reader) :
    skip_whitespaceF (3 * s.wt + 3 + k) s = skip_whitespace s := by
  induction k with
  | zero => rfl
  | succ k ih =>
    rw [← Nat.add_assoc (3 * s.wt + 3) k 1]
    rw [(ws_stable (3 * s.wt + 3 + k)).1 s (by split <;> omega)]
    exact ih

theorem skip_whitespaceF_eq {f : Nat} {s : Reader} (h : 3 * s.wt + 3 ≤ f) :
    skip_whitespaceF f s = skip_whitespace s := by
  obtain ⟨k, rfl⟩ : ∃ k, f = 3 * s.wt + 3 + k := ⟨f - (3 * s.wt + 3), by omega⟩
  exact skip_whitespaceF_add k s

theorem skip_whitespace_wt {s s' : Reader} {r : Except Nat Unit}
    (h : skip_whitespace s = (s', r)) : s'.wt ≤ s.wt := by
  have hw := (ws_wt (3 * s.wt + 3)).1 s
  rw [show skip_whitespaceF (3 * s.wt + 3) s = skip_whitespace s from rfl, h] at hw
  exact hw

theorem ket_wt (f : Nat) :
    (∀ s, (skip_ketF f s).1.wt ≤ s.wt) ∧
      (∀ s, (ketLoopF f s).1.wt ≤ s.wt) := by
  induction f with
  | zero => constructor <;> intro s <;> simp [skip_ketF, ketLoopF]
  | succ f ih =>
    constructor
    · intro s
      simp only [skip_ketF]
      rcases hf : fill_buffer s with ⟨s', r⟩
      have hwt := fill_wt hf
      cases r with
      | error e => exact hwt
      | ok b =>
        cases b
        · exact hwt
        · exact le_trans (ih.2 s') hwt
    · intro s
      simp only [ketLoopF]
      rcases hb : s.buffer with _ | ⟨c, bs⟩
      · exact ih.1 s
      · dsimp only
        by_cases hws : c = spc ∨ c = tab ∨ c = cr ∨ c = rbracket
        · simp only [if_pos hws]
          refine le_trans (ih.2 _) ?_
          simp only [Reader.wt, hb, List.length_cons]
          omega
        · simp only [if_neg hws]
          by_cases hpc : c = percent
          · simp only [if_pos hpc]
            rcases hsu : skip_until lf { s with buffer := bs } with ⟨s'', r⟩
            have h2 := skip_until_wt hsu
            have h3 : ({ s with buffer := bs } : Reader).wt ≤ s.wt := by
              simp only [Reader.wt, hb, List.length_cons]
              omega
            cases r with
            | error e => exact le_trans h2 h3
            | ok u =>
              cases u
              exact le_trans (ih.2 s'') (le_trans h2 h3)
          · simp only [if_neg hpc]
            by_cases hlf : c = lf
            · simp only [if_pos hlf]
              simp only [Reader.wt, hb, List.length_cons]
              omega
            · simp only [if_neg hlf]
              exact le_refl _

theorem ket_stable (f : Nat) :
    (∀ s, 3 * s.wt + (if s.buffer = [] then 1 else 3) ≤ f →
        skip_ketF (f + 1) s = skip_ketF f s) ∧
      (∀ s, 3 * s.wt + (if s.buffer = [] then 2 else 1) ≤ f →
        ketLoopF (f + 1) s = ketLoopF f s) := by
  induction f using Nat.strong_induction_on with
  | _ f ih =>
    constructor
    · intro s hs
      cases f with
      | zero => exfalso; split at hs <;> omega
      | succ g =>
        conv_lhs => rw [skip_ketF.eq_def]
        conv_rhs => rw [skip_ketF.eq_def]
        dsimp only
        rcases hf : fill_buffer s with ⟨s', r⟩
        cases r with
        | error e => rfl
        | ok b =>
          cases b
          · rfl
          · have hne := fill_true_ne hf
            have h1 := fill_wt hf
            refine (ih g (by omega)).2 s' ?_
            rw [if_neg hne]
            by_cases hb : s.buffer = []
            · have h2 := fill_empty_progress hf hb
              rw [if_pos hb] at hs
              omega
            · rw [if_neg hb] at hs
              omega
    · intro s hs
      cases f with
      | zero => exfalso; split at hs <;> omega
      | succ g =>
        conv_lhs => rw [ketLoopF.eq_def]
        conv_rhs => rw [ketLoopF.eq_def]
        dsimp only
        rcases hb : s.buffer with _ | ⟨c, bs⟩
        · refine (ih g (by omega)).1 s ?_
          rw [if_pos hb] at hs ⊢
          omega
        · dsimp only
          have hsne : ¬s.buffer = [] := by rw [hb]; simp
          rw [if_neg hsne] at hs
          have hswt : s.wt = sourceWeight s.inner + (bs.length + 1) := by
            simp only [Reader.wt, hb, List.length_cons]
          by_cases hws : c = spc ∨ c = tab ∨ c = cr ∨ c = rbracket
          · simp only [if_pos hws]
            refine (ih g (by omega)).2 _ ?_
            simp only [Reader.wt]
            have hite : ((if bs = [] then 2 else 1) : Nat) ≤ 2 := by split <;> omega
            omega
          · simp only [if_neg hws]
            by_cases hpc : c = percent
            · simp only [if_pos hpc]
              rcases hsu : skip_until lf { s with buffer := bs } with ⟨s'', r⟩
              cases r with
              | error e => rfl
              | ok u =>
                cases u
                refine (ih g (by omega)).2 s'' ?_
                have h2 := skip_until_wt hsu
                have h3 : ({ s with buffer := bs } : Reader).wt = sourceWeight s.inner + bs.length := by
                  simp only [Reader.wt]
                have hite : ((if s''.buffer = [] then 2 else 1) : Nat) ≤ 2 := by split <;> omega
                omega
            · simp only [if_neg hpc]

theorem skip_ketF_add (k : Nat) (s : Reader) :
    skip_ketF (3 * s.wt + 3 + k) s = skip_ket s := by
  induction k with
  | zero => rfl
  | succ k ih =>
    rw [← Nat.add_assoc (3 * s.wt + 3) k 1]
    rw [(ket_stable (3 * s.wt + 3 + k)).1 s (by split <;> omega)]
    exact ih

theorem skip_ketF_eq {f : Nat} {s : Reader} (h : 3 * s.wt + 3 ≤ f) :
    skip_ketF f s = skip_ket s := by
  obtain ⟨k, rfl⟩ : ∃ k, f = 3 * s.wt + 3 + k := ⟨f - (3 * s.wt + 3), by omega⟩
  exact skip_ketF_add k s

theorem skip_ket_wt {s s' : Reader} {r : Except Nat Unit}
    (h : skip_ket s = (s', r)) : s'.wt ≤ s.wt := by
  have hw := (ket_wt (3 * s.wt + 3)).1 s
  rw [show skip_ketF (3 * s.wt + 3) s = skip_ket s from rfl, h] at hw
  exact hw

/-! ### `scanValue`: index bounds and fuel stability -/

theorem memchr_some_lt {n : Byte} {l : List Byte} {i : Nat}
    (h : memchr n l = some i) : i < l.length := by
  induction l generalizing i with
  | nil => simp [memchr] at h
  | cons b bs ih =>
    rw [memchr] at h
    split at h
    · simp at h ⊢
      omega
    · rcases hm : memchr n bs with _ | j
      · rw [hm] at h
        simp at h
      · rw [hm] at h
        simp at h
        have := ih hm
        simp
        omega

theorem memchr2_some_lt {n₁ n₂ : Byte} {l : List Byte} {i : Nat}
    (h : memchr2 n₁ n₂ l = some i) : i < l.length := by
  induction l generalizing i with
  | nil => simp [memchr2] at h
  | cons b bs ih =>
    rw [memchr2] at h
    split at h
    · simp at h ⊢
      omega
    · rcases hm : memchr2 n₁ n₂ bs with _ | j
      · rw [hm] at h
        simp at h
      · rw [hm] at h
        simp at h
        have := ih hm
        simp
        omega

theorem memchr3_some_lt {n₁ n₂ n₃ : Byte} {l : List Byte} {i : Nat}
    (h : memchr3 n₁ n₂ n₃ l = some i) : i < l.length := by
  induction l generalizing i with
  | nil => simp [memchr3] at h
  | cons b bs ih =>
    rw [memchr3] at h
    split at h
    · simp at h ⊢
      omega
    · rcases hm : memchr3 n₁ n₂ n₃ bs with _ | j
      · rw [hm] at h
        simp at h
      · rw [hm] at h
        simp at h
        have := ih hm
        simp
        omega

theorem scanValueF_snd_ge (f : Nat) (buf : List Byte) (rq : Nat) :
    min rq buf.length ≤ (scanValueF f buf rq).2 := by
  induction f generalizing rq with
  | zero => simp [scanValueF]
  | succ f ih =>
    simp only [scanValueF]
    rcases hm : memchr3 bslash quote lf (buf.drop rq) with _ | delta
    · simp
    · dsimp only
      by_cases hq : buf.getD (rq + delta) 0 = quote
      · simp only [if_pos hq]
        omega
      · simp only [if_neg hq]
        by_cases hlf2 : buf.getD (rq + delta) 0 = lf
        · simp only [if_pos hlf2]
          omega
        · simp only [if_neg hlf2]
          refine le_trans ?_ (ih (min (rq + delta + 2) buf.length))
          omega

theorem scanValueF_stable (f : Nat) (buf : List Byte) (rq : Nat)
    (h : buf.length + 1 - rq ≤ f) :
    scanValueF (f + 1) buf rq = scanValueF f buf rq := by
  induction f generalizing rq with
  | zero =>
    have hrq : buf.length < rq := by omega
    conv_lhs => rw [scanValueF.eq_def]
    conv_rhs => rw [scanValueF.eq_def]
    dsimp only
    rw [List.drop_eq_nil_of_le (by omega)]
    rfl
  | succ g ih =>
    conv_lhs => rw [scanValueF.eq_def]
    conv_rhs => rw [scanValueF.eq_def]
    dsimp only
    rcases hm : memchr3 bslash quote lf (buf.drop rq) with _ | delta
    · rfl
    · have hd := memchr3_some_lt hm
      rw [List.length_drop] at hd
      by_cases hq : buf.getD (rq + delta) 0 = quote
      · simp only [if_pos hq]
      · simp only [if_neg hq]
        by_cases hlf2 : buf.getD (rq + delta) 0 = lf
        · simp only [if_pos hlf2]
        · simp only [if_neg hlf2]
          exact ih _ (by omega)

theorem scanValueF_add (k : Nat) (buf : List Byte) (rq : Nat) :
    scanValueF (buf.length + 1 - rq + k) buf rq = scanValue buf rq := by
  induction k with
  | zero => rfl
  | succ k ih =>
    rw [← Nat.add_assoc (buf.length + 1 - rq) k 1]
    rw [scanValueF_stable _ _ _ (by omega)]
    exact ih

theorem scanValueF_eq {f : Nat} {buf : List Byte} {rq : Nat}
    (h : buf.length + 1 - rq ≤ f) :
    scanValueF f buf rq = scanValue buf rq := by
  obtain ⟨k, rfl⟩ : ∃ k, f = buf.length + 1 - rq + k := ⟨f - (buf.length + 1 - rq), by omega⟩
  exact scanValueF_add k buf rq

theorem scanValue_snd_ge (buf : List Byte) (rq : Nat) :
    min rq buf.length ≤ (scanValue buf rq).2 :=
  scanValueF_snd_ge _ buf rq

/-! ### `read_headers`: fuel stability -/

theorem read_headersF_stable {σ ρ : Type} (V : Visitor σ ρ) (f : Nat)
    (s : Reader) (v : σ) (tr : List Event) (h : s.wt + 1 ≤ f) :
    read_headersF V (f + 1) s v tr = read_headersF V f s v tr := by
  induction f generalizing s v tr with
  | zero => omega
  | succ g ih =>
    conv_lhs => rw [read_headersF.eq_def]
    conv_rhs => rw [read_headersF.eq_def]
    dsimp only
    rcases hf : fill_buffer s with ⟨s', r⟩
    have hwt := fill_wt hf
    cases r with
    | error e => rfl
    | ok b =>
      cases b
      · rfl
      · dsimp only
        rcases hb : s'.buffer with _ | ⟨c, bs⟩
        · rfl
        · dsimp only
          have hswt : s'.wt = sourceWeight s'.inner + (bs.length + 1) := by
            simp only [Reader.wt, hb, List.length_cons]
          by_cases hlb : c = lbracket
          · simp only [if_pos hlb]
            rcases hm : memchr2 quote lf bs with _ | i
            · rcases hsu : skip_until lf { s' with buffer := bs } with ⟨s₂, r₂⟩
              cases r₂ with
              | error e => rfl
              | ok u =>
                cases u
                refine ih s₂ v tr ?_
                have h2 := skip_until_wt hsu
                have h3 : ({ s' with buffer := bs } : Reader).wt = sourceWeight s'.inner + bs.length := by
                  simp only [Reader.wt]
                omega
            · have hilt := memchr2_some_lt hm
              by_cases hq : bs.getD i 0 = quote
              · simp only [if_pos hq]
                have hge := scanValue_snd_ge bs (i + 1)
                rcases hsk : skip_ket { s' with buffer := bs.drop (scanValue bs (i + 1)).2 } with ⟨s₃, r₃⟩
                cases r₃ with
                | error e => rfl
                | ok u =>
                  cases u
                  refine ih s₃ _ _ ?_
                  have h2 := skip_ket_wt hsk
                  have h3 : ({ s' with buffer := bs.drop (scanValue bs (i + 1)).2 } : Reader).wt =
                      sourceWeight s'.inner + (bs.length - (scanValue bs (i + 1)).2) := by
                    simp only [Reader.wt, List.length_drop]
                  omega
              · simp only [if_neg hq]
                refine ih _ _ _ ?_
                have h3 : ({ s' with buffer := bs.drop (i + 1) } : Reader).wt =
                    sourceWeight s'.inner + (bs.length - (i + 1)) := by
                  simp only [Reader.wt, List.length_drop]
                omega
          · simp only [if_neg hlb]
            by_cases hpc : c = percent
            · simp only [if_pos hpc]
              rcases hsu : skip_until lf { s' with buffer := bs } with ⟨s₂, r₂⟩
              cases r₂ with
              | error e => rfl
              | ok u =>
                cases u
                refine ih s₂ v tr ?_
                have h2 := skip_until_wt hsu
                have h3 : ({ s' with buffer := bs } : Reader).wt = sourceWeight s'.inner + bs.length := by
                  simp only [Reader.wt]
                omega
            · simp only [if_neg hpc]

theorem read_headersF_add {σ ρ : Type} (V : Visitor σ ρ) (k : Nat)
    (s : Reader) (v : σ) (tr : List Event) :
    read_headersF V (s.wt + 1 + k) s v tr = read_headers V s v tr := by
  induction k with
  | zero => rfl
  | succ k ih =>
    rw [← Nat.add_assoc (s.wt + 1) k 1]
    rw [read_headersF_stable V _ _ _ _ (by omega)]
    exact ih

theorem read_headersF_eq {σ ρ : Type} {V : Visitor σ ρ} {f : Nat}
    {s : Reader} {v : σ} {tr : List Event} (h : s.wt + 1 ≤ f) :
    read_headersF V f s v tr = read_headers V s v tr := by
  obtain ⟨k, rfl⟩ : ∃ k, f = s.wt + 1 + k := ⟨f - (s.wt + 1), by omega⟩
  exact read_headersF_add V k s v tr

/-! ### `skip_movetext`: fuel stability -/

theorem skip_movetextF_stable (f : Nat) (s : Reader)
    (h : 2 * s.wt + (if s.buffer.head? = some lf then 0 else 1) + 1 ≤ f) :
    skip_movetextF (f + 1) s = skip_movetextF f s := by
  induction f generalizing s with
  | zero => exfalso; split at h <;> omega
  | succ g ih =>
    conv_lhs => rw [skip_movetextF.eq_def]
    conv_rhs => rw [skip_movetextF.eq_def]
    dsimp only
    rcases hf : fill_buffer s with ⟨s', r⟩
    have hwt := fill_wt hf
    cases r with
    | error e => rfl
    | ok b =>
      cases b
      · rfl
      · dsimp only
        -- transfer the bound from `s` to the filled state `s'`
        have hd : 2 * s'.wt + (if s'.buffer.head? = some lf then 0 else 1) + 1 ≤ g + 1 := by
          by_cases hsb : s.buffer = []
          · have h2 := fill_empty_progress hf hsb
            have : ((if s'.buffer.head? = some lf then 0 else 1) : Nat) ≤ 1 := by split <;> omega
            rw [hsb] at h
            simp only [List.head?_nil] at h
            have hno : (some lf : Option Byte) ≠ none := by simp
            rw [if_neg (by simp : ¬((none : Option Byte) = some lf))] at h
            omega
          · obtain ⟨ext, hext⟩ := fill_append hf
            rcases hsb' : s.buffer with _ | ⟨c0, bs0⟩
            · exact absurd hsb' hsb
            · have hhd : s'.buffer.head? = some c0 := by
                rw [hext, hsb']
                simp
              rw [hsb'] at h
              simp only [List.head?_cons] at h
              rw [hhd]
              omega
        rcases hb : s'.buffer with _ | ⟨c, bs⟩
        · rfl
        · dsimp only
          rw [hb] at hd
          simp only [List.head?_cons] at hd
          have hswt : s'.wt = sourceWeight s'.inner + (bs.length + 1) := by
            simp only [Reader.wt, hb, List.length_cons]
          by_cases hbr : c = lbrace
          · simp only [if_pos hbr]
            have hclf : ¬(c = lf) := by rw [hbr]; simp [lbrace, lf]
            rw [if_neg (by simp [hclf] : ¬((some c : Option Byte) = some lf))] at hd
            rcases hsu : skip_until rbrace { s' with buffer := bs } with ⟨s₂, r₂⟩
            cases r₂ with
            | error e => rfl
            | ok u =>
              cases u
              refine ih s₂ ?_
              have h2 := skip_until_wt hsu
              have h3 : ({ s' with buffer := bs } : Reader).wt = sourceWeight s'.inner + bs.length := by
                simp only [Reader.wt]
              have hite : ((if s₂.buffer.head? = some lf then 0 else 1) : Nat) ≤ 1 := by split <;> omega
              omega
          · simp only [if_neg hbr]
            by_cases hsc : c = semicolon
            · simp only [if_pos hsc]
              have hclf : ¬(c = lf) := by rw [hsc]; simp [semicolon, lf]
              rw [if_neg (by simp [hclf] : ¬((some c : Option Byte) = some lf))] at hd
              rcases hsu : skip_until lf { s' with buffer := bs } with ⟨s₂, r₂⟩
              cases r₂ with
              | error e => rfl
              | ok u =>
                cases u
                refine ih _ ?_
                have h2 := skip_until_wt hsu
                have h3 : ({ s' with buffer := bs } : Reader).wt = sourceWeight s'.inner + bs.length := by
                  simp only [Reader.wt]
                have h4 : ({ s₂ with buffer := lf :: s₂.buffer } : Reader).wt = s₂.wt + 1 := by
                  simp only [Reader.wt, List.length_cons]
                  omega
                simp only [List.head?_cons]
                simp
                omega
            · simp only [if_neg hsc]
              by_cases hlf2 : c = lf
              · simp only [if_pos hlf2]
                rw [if_pos (by rw [hlf2] : (some c : Option Byte) = some lf)] at hd
                rcases hbs : bs with _ | ⟨b, bs₂⟩
                · -- trailing lone line feed: pop it and continue with an empty buffer
                  refine ih _ ?_
                  have h3 : ({ s' with buffer := ([] : List Byte) } : Reader).wt = sourceWeight s'.inner := by
                    simp [Reader.wt]
                  simp only [List.head?_nil]
                  rw [if_neg (by simp : ¬((none : Option Byte) = some lf))]
                  rw [hbs] at hswt
                  simp at hswt
                  omega
                · dsimp only
                  rw [hbs] at hswt
                  simp only [List.length_cons] at hswt
                  by_cases hpc : b = percent
                  · simp only [if_pos hpc]
                    rcases hsu : skip_until lf { s' with buffer := bs₂ } with ⟨s₂, r₂⟩
                    have h2 := skip_until_wt hsu
                    have h3 : ({ s' with buffer := bs₂ } : Reader).wt = sourceWeight s'.inner + bs₂.length := by
                      simp only [Reader.wt]
                    dsimp only
                    refine ih _ ?_
                    have h4 : ({ s₂ with buffer := lf :: s₂.buffer } : Reader).wt = s₂.wt + 1 := by
                      simp only [Reader.wt, List.length_cons]
                      omega
                    simp only [List.head?_cons]
                    simp
                    omega
                  · simp only [if_neg hpc]
                    by_cases hlf3 : b = lf
                    · simp only [if_pos hlf3]
                    · simp only [if_neg hlf3]
                      by_cases hlb : b = lbracket
                      · simp only [if_pos hlb]
                      · simp only [if_neg hlb]
                        refine ih _ ?_
                        have h3 : ({ s' with buffer := bs₂ } : Reader).wt = sourceWeight s'.inner + bs₂.length := by
                          simp only [Reader.wt]
                        have hite : ((if bs₂.head? = some lf then 0 else 1) : Nat) ≤ 1 := by split <;> omega
                        dsimp only
                        omega
              · simp only [if_neg hlf2]
                rw [if_neg (by simp [hlf2] : ¬((some c : Option Byte) = some lf))] at hd
                refine ih _ ?_
                have h3 : ({ s' with buffer := bs.drop ((memchr3 lf lbrace semicolon bs).getD bs.length) } : Reader).wt =
                    sourceWeight s'.inner + (bs.length - (memchr3 lf lbrace semicolon bs).getD bs.length) := by
                  simp only [Reader.wt, List.length_drop]
                have hite : ((if (bs.drop ((memchr3 lf lbrace semicolon bs).getD bs.length)).head? = some lf then 0 else 1) : Nat) ≤ 1 := by
                  split <;> omega
                dsimp only
                omega

theorem skip_movetextF_add (k : Nat) (s : Reader) :
    skip_movetextF (2 * s.wt + 2 + k) s = skip_movetext s := by
  induction k with
  | zero => rfl
  | succ k ih =>
    rw [← Nat.add_assoc (2 * s.wt + 2) k 1]
    rw [skip_movetextF_stable _ _ (by split <;> omega)]
    exact ih

theorem skip_movetextF_eq {f : Nat} {s : Reader} (h : 2 * s.wt + 2 ≤ f) :
    skip_movetextF f s = skip_movetext s := by
  obtain ⟨k, rfl⟩ : ∃ k, f = 2 * s.wt + 2 + k := ⟨f - (2 * s.wt + 2), by omega⟩
  exact skip_movetextF_add k s

/-! ### Small evaluation lemmas for states with a drained or trivial source -/

theorem fillLoop_nil (buf : List Byte) : fillLoop [] buf = (buf, [], .ok ()) := by
  rw [fillLoop.eq_def]
  dsimp only
  split <;> rfl

theorem fillLoop_full {src : List ReadEvent} {buf : List Byte}
    (h : BUFFER_SIZE ≤ buf.length) : fillLoop src buf = (buf, src, .ok ()) := by
  rw [fillLoop.eq_def]
  dsimp only
  rw [if_neg (by omega)]

theorem fill_nil (buf : List Byte) :
    fill_buffer ⟨[], buf⟩ = (⟨[], buf⟩, .ok (!buf.isEmpty)) := by
  unfold fill_buffer
  dsimp only
  rw [fillLoop_nil]

theorem fill_chunk (text : List Byte) :
    fill_buffer ⟨[.chunk text], []⟩ = (⟨[], text⟩, .ok (!text.isEmpty)) := by
  unfold fill_buffer
  dsimp only
  rw [fillLoop.eq_def]
  dsimp only
  rw [if_pos (by simp [BUFFER_SIZE])]
  cases text with
  | nil => rfl
  | cons b bs =>
    dsimp only
    rw [fillLoop_nil]
    simp

theorem fill_full {s : Reader} (h : BUFFER_SIZE ≤ s.buffer.length) :
    fill_buffer s = (s, .ok true) := by
  obtain ⟨src, buf⟩ := s
  simp only [fill_buffer]
  rw [fillLoop_full (by simpa using h)]
  have hne : buf ≠ [] := by
    intro hb
    simp only at h
    rw [hb] at h
    simp [BUFFER_SIZE] at h
  simp [List.isEmpty_iff, hne]

theorem memchr2_cons_hit {n₁ n₂ c : Byte} (h : c = n₁ ∨ c = n₂) (l : List Byte) :
    memchr2 n₁ n₂ (c :: l) = some 0 := by
  rw [memchr2, if_pos h]

theorem memchr2_append_plain {n₁ n₂ : Byte} {xs : List Byte}
    (h : ∀ c ∈ xs, c ≠ n₁ ∧ c ≠ n₂) (l : List Byte) :
    memchr2 n₁ n₂ (xs ++ l) = (memchr2 n₁ n₂ l).map (· + xs.length) := by
  induction xs with
  | nil => simp [Option.map_id]
  | cons x xs ih =>
    have hx := h x (by simp)
    rw [List.cons_append, memchr2, if_neg (by tauto)]
    rw [ih (fun c hc => h c (by simp [hc]))]
    cases memchr2 n₁ n₂ l <;> simp <;> omega

theorem memchr3_cons_hit {n₁ n₂ n₃ c : Byte} (h : c = n₁ ∨ c = n₂ ∨ c = n₃) (l : List Byte) :
    memchr3 n₁ n₂ n₃ (c :: l) = some 0 := by
  rw [memchr3, if_pos h]

theorem memchr3_append_plain {n₁ n₂ n₃ : Byte} {xs : List Byte}
    (h : ∀ c ∈ xs, c ≠ n₁ ∧ c ≠ n₂ ∧ c ≠ n₃) (l : List Byte) :
    memchr3 n₁ n₂ n₃ (xs ++ l) = (memchr3 n₁ n₂ n₃ l).map (· + xs.length) := by
  induction xs with
  | nil => simp [Option.map_id]
  | cons x xs ih =>
    have hx := h x (by simp)
    rw [List.cons_append, memchr3, if_neg (by tauto)]
    rw [ih (fun c hc => h c (by simp [hc]))]
    cases memchr3 n₁ n₂ n₃ l <;> simp <;> omega

theorem getD_drop (l : List Byte) (n j : Nat) (d : Byte) :
    (l.drop n).getD j d = l.getD (n + j) d := by
  induction l generalizing n with
  | nil => simp
  | cons x xs ih =>
    cases n with
    | zero => simp
    | succ m =>
      rw [List.drop_succ_cons]
      rw [ih m]
      simp [Nat.succ_add]

theorem getD_append_add (xs l : List Byte) (n : Nat) (d : Byte) :
    (xs ++ l).getD (xs.length + n) d = l.getD n d := by
  induction xs with
  | nil => simp
  | cons x xs ih => simpa [Nat.succ_add] using ih

theorem drop_append_add (xs l : List Byte) (n : Nat) :
    (xs ++ l).drop (xs.length + n) = l.drop n := by
  induction xs with
  | nil => simp
  | cons x xs ih => simpa [Nat.succ_add] using ih

/-! ### Byte classes and step lemmas for well-formed game fragments -/

theorem skip_bom_nil_of_ne {buf : List Byte} (h : buf.take 3 ≠ [0xef, 0xbb, 0xbf]) :
    skip_bom ⟨[], buf⟩ = (⟨[], buf⟩, .ok ()) := by
  unfold skip_bom
  rw [fill_nil]
  dsimp only
  rw [if_neg h]

theorem skip_bom_chunk_of_ne {text : List Byte} (h : text.take 3 ≠ [0xef, 0xbb, 0xbf]) :
    skip_bom ⟨[.chunk text], []⟩ = (⟨[], text⟩, .ok ()) := by
  unfold skip_bom
  rw [fill_chunk]
  dsimp only
  rw [if_neg h]

theorem skip_bom_nil_of_bom (rest : List Byte) :
    skip_bom ⟨[], 0xef :: 0xbb :: 0xbf :: rest⟩ = (⟨[], rest⟩, .ok ()) := by
  unfold skip_bom
  rw [fill_nil]
  dsimp only
  rw [if_pos (by simp)]
  simp

theorem skip_whitespace_empty : skip_whitespace ⟨[], []⟩ = (⟨[], []⟩, .ok ()) := by
  show skip_whitespaceF _ _ = _
  simp only [skip_whitespaceF]
  rw [fill_nil]
  rfl

theorem wsF_plain {c : Byte} (h1 : ¬(c = spc ∨ c = tab ∨ c = cr ∨ c = lf))
    (h2 : ¬c = percent) (rest : List Byte) (f : Nat) :
    skip_whitespaceF (f + 2) ⟨[], c :: rest⟩ = (⟨[], c :: rest⟩, .ok ()) := by
  simp only [skip_whitespaceF]
  rw [fill_nil]
  simp only [List.isEmpty_cons, Bool.not_false]
  simp only [wsLoopF]
  rw [if_neg h1, if_neg h2]

theorem skip_whitespace_plain {c : Byte} (h1 : ¬(c = spc ∨ c = tab ∨ c = cr ∨ c = lf))
    (h2 : ¬c = percent) (rest : List Byte) :
    skip_whitespace ⟨[], c :: rest⟩ = (⟨[], c :: rest⟩, .ok ()) := by
  show skip_whitespaceF (3 * Reader.wt ⟨[], c :: rest⟩ + 3) ⟨[], c :: rest⟩ = _
  exact wsF_plain h1 h2 rest (3 * Reader.wt ⟨[], c :: rest⟩ + 1)

theorem ketF_bracket (rest : List Byte) (f : Nat) :
    skip_ketF (f + 3) ⟨[], rbracket :: lf :: rest⟩ = (⟨[], rest⟩, .ok ()) := by
  simp only [skip_ketF]
  rw [fill_nil]
  simp only [List.isEmpty_cons, Bool.not_false]
  conv_lhs => rw [ketLoopF.eq_def]
  dsimp only
  rw [if_pos (by simp [rbracket, spc, tab, cr] : rbracket = spc ∨ rbracket = tab ∨ rbracket = cr ∨ rbracket = rbracket)]
  conv_lhs => rw [ketLoopF.eq_def]
  dsimp only
  rw [if_neg (by simp [lf, spc, tab, cr, rbracket]), if_neg (by simp [lf, percent]), if_pos rfl]

theorem skip_ket_bracket (rest : List Byte) :
    skip_ket ⟨[], rbracket :: lf :: rest⟩ = (⟨[], rest⟩, .ok ()) := by
  show skip_ketF (3 * Reader.wt ⟨[], rbracket :: lf :: rest⟩ + 3) _ = _
  exact ketF_bracket rest (3 * Reader.wt ⟨[], rbracket :: lf :: rest⟩)

theorem skip_movetext_empty : skip_movetext ⟨[], []⟩ = (⟨[], []⟩, .ok ()) := by
  show skip_movetextF _ _ = _
  simp only [skip_movetextF]
  rw [fill_nil]
  rfl

theorem skip_movetext_blank (rest : List Byte) :
    skip_movetext ⟨[], lf :: lf :: rest⟩ = (⟨[], rest⟩, .ok ()) := by
  show skip_movetextF (2 * Reader.wt ⟨[], lf :: lf :: rest⟩ + 1 + 1) _ = _
  generalize 2 * Reader.wt ⟨[], lf :: lf :: rest⟩ + 1 = N
  simp only [skip_movetextF]
  rw [fill_nil]
  simp only [List.isEmpty_cons, Bool.not_false]
  rw [if_neg (by simp [lf, lbrace]), if_neg (by simp [lf, semicolon])]
  simp [lf, percent]

theorem skip_movetext_lone_lf : skip_movetext ⟨[], [lf]⟩ = (⟨[], []⟩, .ok ()) := by
  decide

/-! ### Scanning a clean quoted value, and move-text lines -/

theorem scanValue_clean {bs w t : List Byte} {rq : Nat}
    (hw : ∀ c ∈ w, c ≠ bslash ∧ c ≠ quote ∧ c ≠ lf)
    (hrq : rq ≤ bs.length)
    (hdrop : bs.drop rq = w ++ quote :: t) :
    scanValue bs rq = (rq + w.length, rq + w.length + 1) := by
  show scanValueF (bs.length + 1 - rq) bs rq = _
  have hfuel : bs.length + 1 - rq = (bs.length - rq) + 1 := by omega
  rw [hfuel]
  simp only [scanValueF]
  rw [hdrop, memchr3_append_plain hw, memchr3_cons_hit (Or.inr (Or.inl rfl))]
  simp only [Option.map_some']
  have hq : bs.getD (rq + (0 + w.length)) 0 = quote := by
    have h1 := getD_drop bs rq (0 + w.length) 0
    rw [hdrop] at h1
    rw [← h1]
    have h2 : (0 + w.length) = w.length + 0 := by omega
    rw [h2, getD_append_add]
    rfl
  rw [if_pos hq]
  have : 0 + w.length = w.length := by omega
  rw [this]

theorem skip_movetext_line {c : Byte} {m' rest : List Byte}
    (hm : ∀ b ∈ c :: m', Plain b) :
    skip_movetext ⟨[], (c :: m') ++ lf :: lf :: rest⟩ = (⟨[], rest⟩, .ok ()) := by
  obtain ⟨-, -, hclf, -, -, hcbr, hcsemi, -, -, -, -⟩ := hm c (by simp)
  have hm' : ∀ b ∈ m', b ≠ lf ∧ b ≠ lbrace ∧ b ≠ semicolon := by
    intro b hb
    obtain ⟨-, -, h1, -, -, h2, h3, -, -, -, -⟩ := hm b (by simp [hb])
    exact ⟨h1, h2, h3⟩
  show skip_movetextF (2 * Reader.wt ⟨[], (c :: m') ++ lf :: lf :: rest⟩ + 1 + 1) _ = _
  simp only [List.cons_append]
  generalize hN : 2 * Reader.wt ⟨[], c :: (m' ++ lf :: lf :: rest)⟩ + 1 = N
  simp only [skip_movetextF]
  rw [fill_nil]
  simp only [List.isEmpty_cons, Bool.not_false]
  rw [if_neg hcbr, if_neg hcsemi, if_neg hclf]
  rw [memchr3_append_plain hm', memchr3_cons_hit (Or.inl rfl)]
  simp only [Option.map_some', Option.getD_some]
  have hdrop : (m' ++ lf :: lf :: rest).drop (0 + m'.length) = lf :: lf :: rest := by
    have : (0 + m'.length) = m'.length + 0 := by omega
    rw [this, drop_append_add]
    rfl
  rw [hdrop]
  rw [skip_movetextF_eq (by rw [← hN]; simp [Reader.wt, sourceWeight]; omega)]
  exact skip_movetext_blank rest

theorem skip_movetext_last {c : Byte} {m' : List Byte}
    (hm : ∀ b ∈ c :: m', Plain b) :
    skip_movetext ⟨[], (c :: m') ++ [lf]⟩ = (⟨[], []⟩, .ok ()) := by
  obtain ⟨-, -, hclf, -, -, hcbr, hcsemi, -, -, -, -⟩ := hm c (by simp)
  have hm' : ∀ b ∈ m', b ≠ lf ∧ b ≠ lbrace ∧ b ≠ semicolon := by
    intro b hb
    obtain ⟨-, -, h1, -, -, h2, h3, -, -, -, -⟩ := hm b (by simp [hb])
    exact ⟨h1, h2, h3⟩
  show skip_movetextF (2 * Reader.wt ⟨[], (c :: m') ++ [lf]⟩ + 1 + 1) _ = _
  simp only [List.cons_append]
  generalize hN : 2 * Reader.wt ⟨[], c :: (m' ++ [lf])⟩ + 1 = N
  simp only [skip_movetextF]
  rw [fill_nil]
  simp only [List.isEmpty_cons, Bool.not_false]
  rw [if_neg hcbr, if_neg hcsemi, if_neg hclf]
  rw [memchr3_append_plain hm', memchr3_cons_hit (Or.inl rfl)]
  simp only [Option.map_some', Option.getD_some]
  have hdrop : (m' ++ [lf]).drop (0 + m'.length) = [lf] := by
    have : (0 + m'.length) = m'.length + 0 := by omega
    rw [this, drop_append_add]
    rfl
  rw [hdrop]
  rw [skip_movetextF_eq (by rw [← hN]; simp [Reader.wt, sourceWeight]; omega)]
  exact skip_movetext_lone_lf

/-! ### `read_headers` step lemmas -/

theorem read_headers_stop {σ ρ : Type} {c : Byte} (V : Visitor σ ρ)
    (h1 : ¬c = lbracket) (h2 : ¬c = percent) (rest : List Byte) (v : σ) (tr : List Event) :
    read_headers V ⟨[], c :: rest⟩ v tr = ((⟨[], c :: rest⟩, v, tr), .ok ()) := by
  show read_headersF V (Reader.wt ⟨[], c :: rest⟩ + 1) _ _ _ = _
  simp only [read_headersF]
  rw [fill_nil]
  simp only [List.isEmpty_cons, Bool.not_false]
  rw [if_neg h1, if_neg h2]

theorem read_headers_line {σ ρ : Type} {k w rest : List Byte}
    (hk : ∀ c ∈ k, Plain c) (hw : ∀ c ∈ w, Plain c)
    (V : Visitor σ ρ) (v : σ) (tr : List Event) :
    read_headers V ⟨[], headerLine k w ++ rest⟩ v tr =
      read_headers V ⟨[], rest⟩ (V.header v k w) (tr ++ [Event.header k w]) := by
  have hk2 : ∀ c ∈ k, c ≠ quote ∧ c ≠ lf := by
    intro c hc
    obtain ⟨-, h1, h2, -, -, -, -, -, -, -, -⟩ := hk c hc
    exact ⟨h1, h2⟩
  have hw2 : ∀ c ∈ w, c ≠ bslash ∧ c ≠ quote ∧ c ≠ lf := by
    intro c hc
    obtain ⟨-, h1, h2, h3, -, -, -, -, -, -, -⟩ := hw c hc
    exact ⟨h3, h1, h2⟩
  have hshape : headerLine k w ++ rest =
      lbracket :: (k ++ spc :: quote :: (w ++ quote :: rbracket :: lf :: rest)) := by
    simp [headerLine]
  rw [hshape]
  show read_headersF V
      (Reader.wt ⟨[], lbracket :: (k ++ spc :: quote :: (w ++ quote :: rbracket :: lf :: rest))⟩ + 1) _ _ _ = _
  generalize hN : Reader.wt ⟨[], lbracket :: (k ++ spc :: quote :: (w ++ quote :: rbracket :: lf :: rest))⟩ = N
  simp only [read_headersF]
  rw [fill_nil]
  simp only [List.isEmpty_cons, Bool.not_false]
  rw [if_pos trivial]
  have hmem : memchr2 quote lf (k ++ spc :: quote :: (w ++ quote :: rbracket :: lf :: rest)) =
      some (1 + k.length) := by
    rw [memchr2_append_plain hk2]
    rw [memchr2, if_neg (by simp [spc, quote, lf]), memchr2_cons_hit (Or.inl rfl)]
    rfl
  rw [hmem]
  dsimp only
  have hq : (k ++ spc :: quote :: (w ++ quote :: rbracket :: lf :: rest)).getD (1 + k.length) 0 = quote := by
    rw [show 1 + k.length = k.length + 1 from by omega, getD_append_add]
    rfl
  rw [if_pos hq]
  have hsp : (k ++ spc :: quote :: (w ++ quote :: rbracket :: lf :: rest)).getD (1 + k.length - 1) 0 = spc := by
    rw [show 1 + k.length - 1 = k.length + 0 from by omega, getD_append_add]
    rfl
  rw [if_pos ⟨by omega, hsp⟩]
  have hdrop : (k ++ spc :: quote :: (w ++ quote :: rbracket :: lf :: rest)).drop (1 + k.length + 1) =
      w ++ quote :: (rbracket :: lf :: rest) := by
    rw [show 1 + k.length + 1 = k.length + 2 from by omega, drop_append_add]
    rfl
  have hscan : scanValue (k ++ spc :: quote :: (w ++ quote :: rbracket :: lf :: rest)) (1 + k.length + 1) =
      (1 + k.length + 1 + w.length, 1 + k.length + 1 + w.length + 1) :=
    scanValue_clean hw2 (by simp; omega) hdrop
  rw [hscan]
  have htake1 : (k ++ spc :: quote :: (w ++ quote :: rbracket :: lf :: rest)).take (1 + k.length - 1) = k := by
    rw [show 1 + k.length - 1 = k.length from by omega]
    exact List.take_left k _
  rw [htake1]
  have htake2 : ((k ++ spc :: quote :: (w ++ quote :: rbracket :: lf :: rest)).drop (1 + k.length + 1)).take
      (1 + k.length + 1 + w.length - (1 + k.length + 1)) = w := by
    rw [hdrop, show 1 + k.length + 1 + w.length - (1 + k.length + 1) = w.length from by omega]
    exact List.take_left w _
  rw [htake2]
  have hdrop2 : (k ++ spc :: quote :: (w ++ quote :: rbracket :: lf :: rest)).drop (1 + k.length + 1 + w.length + 1) =
      rbracket :: lf :: rest := by
    rw [show 1 + k.length + 1 + w.length + 1 = (1 + k.length + 1) + (w.length + 1) from by omega]
    rw [← List.drop_drop, hdrop]
    rw [show w.length + 1 = w.length + 1 from rfl]
    rw [drop_append_add w (quote :: rbracket :: lf :: rest) 1]
    rfl
  rw [hdrop2, skip_ket_bracket]
  dsimp only
  rw [read_headersF_eq (by rw [← hN]; simp [Reader.wt, sourceWeight]; omega)]

/-! ### Further characterization lemmas -/

theorem fill_false {s s' : Reader} (h : fill_buffer s = (s', .ok false)) :
    s'.buffer = [] ∧ s.buffer = [] ∧
      (s.inner = [] ∨ ∃ rest, s.inner = ReadEvent.chunk [] :: rest) := by
  have hbe : s'.buffer = [] := by
    unfold fill_buffer at h
    rcases hfl : fillLoop s.inner s.buffer with ⟨buf, src, err⟩
    rw [hfl] at h
    match err with
    | .ok () =>
      simp at h
      obtain ⟨h1, h2⟩ := h
      rw [← h1]
      simpa using h2
    | .error e => simp at h
  have hsb : s.buffer = [] := by
    obtain ⟨ext, hext⟩ := fill_append h
    rw [hbe] at hext
    exact List.append_eq_nil.mp hext.symm |>.1
  refine ⟨hbe, hsb, ?_⟩
  rcases hsrc : s.inner with _ | ⟨ev, rest⟩
  · exact Or.inl rfl
  · right
    match ev with
    | .ioError e =>
      exfalso
      unfold fill_buffer at h
      rw [hsrc, hsb] at h
      rw [fillLoop.eq_def] at h
      simp [BUFFER_SIZE] at h
    | .chunk [] => exact ⟨rest, rfl⟩
    | .chunk (b :: bs) =>
      exfalso
      unfold fill_buffer at h
      rw [hsrc, hsb] at h
      rw [fillLoop.eq_def] at h
      simp only [BUFFER_SIZE] at h
      rw [if_pos (by simp)] at h
      obtain ⟨ext, hext⟩ := fillLoop_append rest ([] ++ b :: bs)
      rcases hfl : fillLoop rest ([] ++ b :: bs) with ⟨buf, src, err⟩
      rw [hfl] at h hext
      simp at hext
      match err with
      | .ok () =>
        simp at h
        rw [hext] at h
        simp at h
      | .error e => simp at h

theorem scanValue_none {bs : List Byte} {rq : Nat}
    (h : memchr3 bslash quote lf (bs.drop rq) = none) :
    scanValue bs rq = (bs.length, bs.length) := by
  show scanValueF (bs.length + 1 - rq) bs rq = _
  rcases hf : bs.length + 1 - rq with _ | g
  · rfl
  · simp only [scanValueF]
    rw [h]

theorem skip_bom_chunk_eq (text : List Byte) :
    skip_bom ⟨[.chunk text], []⟩ = skip_bom ⟨[], text⟩ := by
  unfold skip_bom
  rw [fill_chunk, fill_nil]

theorem read_game_chunk {σ ρ : Type} (V : Visitor σ ρ) (v : σ) (text : List Byte) :
    read_game V v ⟨[.chunk text], []⟩ = read_game V v ⟨[], text⟩ := by
  unfold read_game
  rw [skip_bom_chunk_eq]

theorem read_headers_game {σ ρ : Type} (V : Visitor σ ρ)
    (hs : List (List Byte × List Byte))
    (hplain : ∀ p ∈ hs, (∀ c ∈ p.1, Plain c) ∧ (∀ c ∈ p.2, Plain c))
    {c : Byte} (hc1 : ¬c = lbracket) (hc2 : ¬c = percent)
    (rest : List Byte) (v : σ) (tr : List Event) :
    read_headers V ⟨[], (hs.map fun p => headerLine p.1 p.2).join ++ (c :: rest)⟩ v tr =
      ((⟨[], c :: rest⟩, foldHeaders V v hs,
        tr ++ hs.map fun p => Event.header p.1 p.2), .ok ()) := by
  induction hs generalizing v tr with
  | nil =>
    simp only [List.map_nil, List.join, List.nil_append, List.append_nil, foldHeaders,
      List.foldl_nil]
    exact read_headers_stop V hc1 hc2 rest v tr
  | cons p ps ih =>
    have h1 := hplain p (by simp)
    rw [show ((p :: ps).map fun q => headerLine q.1 q.2).join ++ (c :: rest) =
        headerLine p.1 p.2 ++ ((ps.map fun q => headerLine q.1 q.2).join ++ (c :: rest)) from by
      simp]
    rw [read_headers_line h1.1 h1.2]
    rw [ih (fun q hq => hplain q (by simp [hq]))]
    simp [foldHeaders]

/-! ### `read_headers`: the only hook it can invoke is `header` -/

theorem read_headersF_congr {σ ρ : Type} {V₁ V₂ : Visitor σ ρ} (h : V₁.header = V₂.header)
    (f : Nat) (s : Reader) (v : σ) (tr : List Event) :
    read_headersF V₁ f s v tr = read_headersF V₂ f s v tr := by
  induction f generalizing s v tr with
  | zero => rfl
  | succ f ih =>
    simp only [read_headersF]
    rcases hf : fill_buffer s with ⟨s', r⟩
    cases r with
    | error e => rfl
    | ok b =>
      cases b
      · rfl
      · dsimp only
        rcases hb : s'.buffer with _ | ⟨c, bs⟩
        · rfl
        · dsimp only
          by_cases hlb : c = lbracket
          · simp only [if_pos hlb]
            rcases hm : memchr2 quote lf bs with _ | i
            · rcases hsu : skip_until lf { s' with buffer := bs } with ⟨s₂, r₂⟩
              cases r₂ with
              | error e => rfl
              | ok u =>
                cases u
                exact ih s₂ v tr
            · by_cases hq : bs.getD i 0 = quote
              · simp only [if_pos hq]
                rcases hsk : skip_ket { s' with buffer := bs.drop (scanValue bs (i + 1)).2 } with ⟨s₃, r₃⟩
                cases r₃ with
                | error e =>
                  dsimp only
                  rw [h]
                | ok u =>
                  cases u
                  dsimp only
                  rw [h]
                  exact ih _ _ _
              · simp only [if_neg hq]
                rw [h, ih]
          · simp only [if_neg hlb]
            by_cases hpc : c = percent
            · simp only [if_pos hpc]
              rcases hsu : skip_until lf { s' with buffer := bs } with ⟨s₂, r₂⟩
              cases r₂ with
              | error e => rfl
              | ok u =>
                cases u
                exact ih s₂ v tr
            · simp only [if_neg hpc]

theorem read_headers_congr {σ ρ : Type} {V₁ V₂ : Visitor σ ρ} (h : V₁.header = V₂.header)
    (s : Reader) (v : σ) (tr : List Event) :
    read_headers V₁ s v tr = read_headers V₂ s v tr :=
  read_headersF_congr h (s.wt + 1) s v tr

theorem read_headersF_trace {σ ρ : Type} (V : Visitor σ ρ) (f : Nat) (s : Reader) (v : σ)
    (tr : List Event) (e : Event) (he : e ∈ (read_headersF V f s v tr).1.2.2) :
    e ∈ tr ∨ ∃ kk ww, e = Event.header kk ww := by
  induction f generalizing s v tr with
  | zero => exact Or.inl he
  | succ f ih =>
    rw [read_headersF.eq_def] at he
    dsimp only at he
    rcases hf : fill_buffer s with ⟨s', r⟩
    rw [hf] at he
    cases r with
    | error e2 => exact Or.inl he
    | ok b =>
      cases b
      · exact Or.inl he
      · dsimp only at he
        rcases hb : s'.buffer with _ | ⟨c, bs⟩
        · rw [hb] at he
          exact Or.inl he
        · rw [hb] at he
          dsimp only at he
          by_cases hlb : c = lbracket
          · rw [if_pos hlb] at he
            rcases hm : memchr2 quote lf bs with _ | i
            · rw [hm] at he
              dsimp only at he
              rcases hsu : skip_until lf { s' with buffer := bs } with ⟨s₂, r₂⟩
              rw [hsu] at he
              cases r₂ with
              | error e2 => exact Or.inl he
              | ok u =>
                cases u
                exact ih s₂ v tr he
            · rw [hm] at he
              dsimp only at he
              by_cases hq : bs.getD i 0 = quote
              · rw [if_pos hq] at he
                rcases hsk : skip_ket { s' with buffer := bs.drop (scanValue bs (i + 1)).2 } with ⟨s₃, r₃⟩
                rw [hsk] at he
                cases r₃ with
                | error e2 =>
                  dsimp only at he
                  rcases List.mem_append.mp he with h1 | h2
                  · exact Or.inl h1
                  · right
                    simp at h2
                    exact ⟨_, _, h2⟩
                | ok u =>
                  cases u
                  rcases ih _ _ _ he with h1 | h2
                  · rcases List.mem_append.mp h1 with h3 | h4
                    · exact Or.inl h3
                    · right
                      simp at h4
                      exact ⟨_, _, h4⟩
                  · exact Or.inr h2
              · rw [if_neg hq] at he
                rcases ih _ _ _ he with h1 | h2
                · rcases List.mem_append.mp h1 with h3 | h4
                  · exact Or.inl h3
                  · right
                    simp at h4
                    exact ⟨_, _, h4⟩
                · exact Or.inr h2
          · rw [if_neg hlb] at he
            by_cases hpc : c = percent
            · rw [if_pos hpc] at he
              rcases hsu : skip_until lf { s' with buffer := bs } with ⟨s₂, r₂⟩
              rw [hsu] at he
              cases r₂ with
              | error e2 => exact Or.inl he
              | ok u =>
                cases u
                exact ih s₂ v tr he
            · rw [if_neg hpc] at he
              exact Or.inl he

theorem read_headers_trace {σ ρ : Type} (V : Visitor σ ρ) (s : Reader) (v : σ)
    (tr : List Event) (e : Event) (he : e ∈ (read_headers V s v tr).1.2.2) :
    e ∈ tr ∨ ∃ kk ww, e = Event.header kk ww :=
  read_headersF_trace V (s.wt + 1) s v tr e he

/-! ### One well-formed game through `read_game` -/

theorem gameBytes_head (hs : List (List Byte × List Byte)) {c : Byte} {m' : List Byte}
    (hm : ∀ b ∈ c :: m', Plain b) :
    ∃ d t, gameBytes hs (c :: m') = d :: t ∧
      ¬(d = spc ∨ d = tab ∨ d = cr ∨ d = lf) ∧ d ≠ percent ∧ d ≠ 0xef := by
  cases hs with
  | nil =>
    obtain ⟨hlt, -, h2, -, -, -, -, h3, h4, h5, h6⟩ := hm c (by simp)
    refine ⟨c, m' ++ [lf], by simp [gameBytes], by tauto, h3, ?_⟩
    intro hh
    rw [hh] at hlt
    exact absurd hlt (by decide)
  | cons p ps =>
    have hsplit : gameBytes (p :: ps) (c :: m') =
        headerLine p.1 p.2 ++ ((ps.map fun q => headerLine q.1 q.2).join ++ ((c :: m') ++ [lf])) := by
      simp [gameBytes]
    have hshape : headerLine p.1 p.2 ++
        ((ps.map fun q => headerLine q.1 q.2).join ++ ((c :: m') ++ [lf])) =
        lbracket :: (p.1 ++ spc :: quote ::
          (p.2 ++ quote :: rbracket :: lf ::
            ((ps.map fun q => headerLine q.1 q.2).join ++ ((c :: m') ++ [lf])))) := by
      simp [headerLine]
    exact ⟨lbracket,
      p.1 ++ spc :: quote :: (p.2 ++ quote :: rbracket :: lf ::
        ((ps.map fun q => headerLine q.1 q.2).join ++ ((c :: m') ++ [lf]))),
      by rw [hsplit, hshape], by decide, by decide, by decide⟩

theorem take3_ne_bom {d : Byte} (t : List Byte) (hd : d ≠ 0xef) :
    (d :: t).take 3 ≠ [0xef, 0xbb, 0xbf] := by
  intro hh
  rw [List.take_succ_cons] at hh
  simp at hh
  exact hd hh.1

theorem read_game_mid {σ ρ : Type} (V : Visitor σ ρ) (v : σ)
    (hs : List (List Byte × List Byte)) {c : Byte} {m' : List Byte}
    (hplain : ∀ p ∈ hs, (∀ x ∈ p.1, Plain x) ∧ (∀ x ∈ p.2, Plain x))
    (hm : ∀ b ∈ c :: m', Plain b)
    {d : Byte} {rest : List Byte}
    (hd1 : ¬(d = spc ∨ d = tab ∨ d = cr ∨ d = lf)) (hd2 : ¬d = percent) (hd3 : d ≠ 0xef) :
    read_game V v ⟨[], gameBytes hs (c :: m') ++ lf :: d :: rest⟩ =
      ((⟨[], d :: rest⟩,
        (V.end_game (V.end_headers (foldHeaders V (V.begin_headers (V.begin_game v)) hs)).1).1,
        [Event.beginGame, Event.beginHeaders] ++ (hs.map fun p => Event.header p.1 p.2) ++
          [Event.endHeaders, Event.endGame]),
       .ok (some (V.end_game (V.end_headers (foldHeaders V (V.begin_headers (V.begin_game v)) hs)).1).2)) := by
  obtain ⟨e0, t0, ht0, he1, he2, he3⟩ := gameBytes_head hs hm
  have hbuf : gameBytes hs (c :: m') ++ lf :: d :: rest = e0 :: (t0 ++ lf :: d :: rest) := by
    rw [ht0]
    simp
  have hform : gameBytes hs (c :: m') ++ lf :: d :: rest =
      (hs.map fun p => headerLine p.1 p.2).join ++ (c :: (m' ++ lf :: lf :: d :: rest)) := by
    simp [gameBytes]
  have hbom : skip_bom ⟨[], gameBytes hs (c :: m') ++ lf :: d :: rest⟩ =
      (⟨[], gameBytes hs (c :: m') ++ lf :: d :: rest⟩, .ok ()) := by
    rw [hbuf]
    exact skip_bom_nil_of_ne (take3_ne_bom _ he3)
  have hws : skip_whitespace ⟨[], gameBytes hs (c :: m') ++ lf :: d :: rest⟩ =
      (⟨[], gameBytes hs (c :: m') ++ lf :: d :: rest⟩, .ok ()) := by
    rw [hbuf]
    exact skip_whitespace_plain he1 he2 _
  have hfb : fill_buffer ⟨[], gameBytes hs (c :: m') ++ lf :: d :: rest⟩ =
      (⟨[], gameBytes hs (c :: m') ++ lf :: d :: rest⟩, .ok true) := by
    rw [hbuf, fill_nil]
    simp
  have hc := hm c (by simp)
  obtain ⟨-, -, -, -, hcbr, -, -, hcpc, -, -, -⟩ := hc
  unfold read_game
  rw [hbom]
  dsimp only
  rw [hws]
  dsimp only
  rw [hfb]
  dsimp only
  rw [hform, read_headers_game V hs hplain hcbr hcpc _ _ _]
  dsimp only
  rw [ite_self]
  rw [show skip_movetext ⟨[], c :: (m' ++ lf :: lf :: d :: rest)⟩ = (⟨[], d :: rest⟩, .ok ()) from
    skip_movetext_line hm]
  dsimp only
  rw [skip_whitespace_plain hd1 hd2]
  simp

theorem read_game_last {σ ρ : Type} (V : Visitor σ ρ) (v : σ)
    (hs : List (List Byte × List Byte)) {c : Byte} {m' : List Byte}
    (hplain : ∀ p ∈ hs, (∀ x ∈ p.1, Plain x) ∧ (∀ x ∈ p.2, Plain x))
    (hm : ∀ b ∈ c :: m', Plain b) :
    read_game V v ⟨[], gameBytes hs (c :: m')⟩ =
      ((⟨[], []⟩,
        (V.end_game (V.end_headers (foldHeaders V (V.begin_headers (V.begin_game v)) hs)).1).1,
        [Event.beginGame, Event.beginHeaders] ++ (hs.map fun p => Event.header p.1 p.2) ++
          [Event.endHeaders, Event.endGame]),
       .ok (some (V.end_game (V.end_headers (foldHeaders V (V.begin_headers (V.begin_game v)) hs)).1).2)) := by
  obtain ⟨e0, t0, ht0, he1, he2, he3⟩ := gameBytes_head hs hm
  have hform : gameBytes hs (c :: m') =
      (hs.map fun p => headerLine p.1 p.2).join ++ (c :: (m' ++ [lf])) := by
    simp [gameBytes]
  have hbom : skip_bom ⟨[], gameBytes hs (c :: m')⟩ =
      (⟨[], gameBytes hs (c :: m')⟩, .ok ()) := by
    rw [ht0]
    exact skip_bom_nil_of_ne (take3_ne_bom _ he3)
  have hws : skip_whitespace ⟨[], gameBytes hs (c :: m')⟩ =
      (⟨[], gameBytes hs (c :: m')⟩, .ok ()) := by
    rw [ht0]
    exact skip_whitespace_plain he1 he2 _
  have hfb : fill_buffer ⟨[], gameBytes hs (c :: m')⟩ =
      (⟨[], gameBytes hs (c :: m')⟩, .ok true) := by
    rw [ht0, fill_nil]
    simp
  have hc := hm c (by simp)
  obtain ⟨-, -, -, -, hcbr, -, -, hcpc, -, -, -⟩ := hc
  unfold read_game
  rw [hbom]
  dsimp only
  rw [hws]
  dsimp only
  rw [hfb]
  dsimp only
  rw [hform, read_headers_game V hs hplain hcbr hcpc _ _ _]
  dsimp only
  rw [ite_self]
  rw [show skip_movetext ⟨[], c :: (m' ++ [lf])⟩ = (⟨[], []⟩, .ok ()) from
    skip_movetext_last hm]
  dsimp only
  rw [skip_whitespace_empty]
  simp

/-! ### Claims -/

/-- C2: for every visitor and every input, `read_game` behaves identically
whatever Boolean the `end_headers` skip signal carries — the two branches
following `end_headers` perform the same skip-scan, consume the same bytes,
emit the same events and produce the same result — and the move-text hooks
(`san`, `nag`, `comment`, `begin_variation`, `end_variation`, `outcome`)
are never invoked by the reader: no corresponding event ever appears in a
trace. -/
theorem C2_skip_signal_irrelevant :
    (∀ (σ ρ : Type) (V : Visitor σ ρ) (b₁ b₂ : Bool) (v : σ) (s : Reader),
      read_game (V.withSkip b₁) v s = read_game (V.withSkip b₂) v s) ∧
    (∀ (σ ρ : Type) (V : Visitor σ ρ) (v : σ) (s : Reader) (e : Event),
      e ∈ (read_game V v s).1.2.2 → Event.isMoveTextHook e = false) := by
  constructor
  · intro σ ρ V b₁ b₂ v s
    unfold read_game
    dsimp only [Visitor.withSkip]
    simp only [read_headers_congr
      (show ({ V with end_headers := fun v => ((V.end_headers v).1, b₁) } : Visitor σ ρ).header =
        ({ V with end_headers := fun v => ((V.end_headers v).1, b₂) } : Visitor σ ρ).header from rfl)]
    simp only [ite_self]
  · intro σ ρ V v s e he
    unfold read_game at he
    rcases h1 : skip_bom s with ⟨s₁, r₁⟩
    rw [h1] at he
    cases r₁ with
    | error e1 => simp at he
    | ok u =>
      cases u
      dsimp only at he
      rcases h2 : skip_whitespace s₁ with ⟨s₂, r₂⟩
      rw [h2] at he
      cases r₂ with
      | error e2 => simp at he
      | ok u =>
        cases u
        dsimp only at he
        rcases h3 : fill_buffer s₂ with ⟨s₃, r₃⟩
        rw [h3] at he
        cases r₃ with
        | error e3 => simp at he
        | ok b =>
          cases b
          · simp at he
          · dsimp only at he
            rcases h4 : read_headers V s₃ (V.begin_headers (V.begin_game v))
                [Event.beginGame, Event.beginHeaders] with ⟨⟨s₄, v₃, tr₁⟩, r₄⟩
            rw [h4] at he
            have htr : ∀ x, x ∈ tr₁ → Event.isMoveTextHook x = false := by
              intro x hx
              have := read_headers_trace V s₃ (V.begin_headers (V.begin_game v))
                [Event.beginGame, Event.beginHeaders] x (by rw [h4]; exact hx)
              rcases this with hin | ⟨kk, ww, rfl⟩
              · simp at hin
                rcases hin with h | h
                · rw [h]; rfl
                · rw [h]; rfl
              · rfl
            cases r₄ with
            | error e4 =>
              dsimp only at he
              exact htr e he
            | ok u =>
              cases u
              dsimp only at he
              rw [ite_self] at he
              rcases h5 : skip_movetext s₄ with ⟨s₅, r₅⟩
              rw [h5] at he
              cases r₅ with
              | error e5 =>
                dsimp only at he
                rcases List.mem_append.mp he with hin | hin
                · exact htr e hin
                · simp at hin
                  rw [hin]
                  rfl
              | ok u =>
                cases u
                dsimp only at he
                rcases h6 : skip_whitespace s₅ with ⟨s₆, r₆⟩
                rw [h6] at he
                cases r₆ with
                | error e6 =>
                  dsimp only at he
                  rcases List.mem_append.mp he with hin | hin
                  · exact htr e hin
                  · simp at hin
                    rw [hin]
                    rfl
                | ok u =>
                  cases u
                  dsimp only at he
                  rcases List.mem_append.mp he with hin | hin
                  · rcases List.mem_append.mp hin with hin2 | hin2
                    · exact htr e hin2
                    · simp at hin2
                      rw [hin2]
                      rfl
                  · simp at hin
                    rw [hin]
                    rfl

/-- C2 witness: at a concrete visitor, input and trace element, the two
skip-signal branches coincide and the inspected event is not a move-text
hook. -/
theorem C2_skip_signal_irrelevant_witness :
    read_game (SkipVisitor.withSkip true) () ⟨[.chunk (bytes "[A \"x\"]\n\n*\n")], []⟩ =
      read_game (SkipVisitor.withSkip false) () ⟨[.chunk (bytes "[A \"x\"]\n\n*\n")], []⟩ ∧
    (Event.beginGame ∈ (read_game SkipVisitor ()
        ⟨[.chunk (bytes "[A \"x\"]\n\n*\n")], []⟩).1.2.2 ∧
      Event.isMoveTextHook Event.beginGame = false) :=
  ⟨C2_skip_signal_irrelevant.1 Unit Unit SkipVisitor true false () _,
   by decide,
   C2_skip_signal_irrelevant.2 Unit Unit SkipVisitor ()
     ⟨[.chunk (bytes "[A \"x\"]\n\n*\n")], []⟩ Event.beginGame (by decide)⟩

/-- C1 (counterexample): the claim that the UTF-8 byte-order mark is consumed
only when it forms the first three bytes of the entire stream is false.  For
the concrete stream below — whose first three bytes are not the BOM — the
first `read_game` call ends with the BOM heading the unread input, and the
second call consumes that mid-stream BOM (its trace parses the following
`[Event "x"]` header normally) instead of treating the three bytes as
ordinary content, which would have ended the header block at once and
produced no header event. -/
theorem C1_bom_counterexample :
    (bytes "[A \"x" ++ [0xef, 0xbb, 0xbf] ++ bytes "y\"]\n\n\n" ++ [0xef, 0xbb, 0xbf] ++
        bytes "[Event \"x\"]\n\n*\n").take 3 ≠ [0xef, 0xbb, 0xbf] ∧
    read_game SkipVisitor ()
        ⟨[.chunk (bytes "[A \"x" ++ [0xef, 0xbb, 0xbf] ++ bytes "y\"]\n\n\n" ++
          [0xef, 0xbb, 0xbf] ++ bytes "[Event \"x\"]\n\n*\n")], []⟩ =
      ((⟨[], [0xef, 0xbb, 0xbf] ++ bytes "[Event \"x\"]\n\n*\n"⟩, (),
        [Event.beginGame, Event.beginHeaders,
         Event.header (bytes "A") (bytes "x" ++ [0xef, 0xbb, 0xbf] ++ bytes "y"),
         Event.endHeaders, Event.endGame]),
       .ok (some ())) ∧
    read_game SkipVisitor () ⟨[], [0xef, 0xbb, 0xbf] ++ bytes "[Event \"x\"]\n\n*\n"⟩ =
      ((⟨[], []⟩, (),
        [Event.beginGame, Event.beginHeaders,
         Event.header (bytes "Event") (bytes "x"),
         Event.endHeaders, Event.endGame]),
       .ok (some ())) := by
  refine ⟨by decide, by decide, by decide⟩

/-- C1 (amended): the byte-order mark is consumed exactly when it forms the
first three buffered bytes at the start of a `read_game` call — which happens
at stream start and equally at the start of any later game, since every call
begins with `skip_bom` — and the same three bytes are ordinary content
anywhere else within a call: the concrete run shows them surfacing verbatim
inside a header value. -/
theorem C1_bom_amended :
    (∀ buf : List Byte, skip_bom ⟨[], 0xef :: 0xbb :: 0xbf :: buf⟩ = (⟨[], buf⟩, .ok ())) ∧
    (∀ buf : List Byte, buf.take 3 ≠ [0xef, 0xbb, 0xbf] →
      skip_bom ⟨[], buf⟩ = (⟨[], buf⟩, .ok ())) ∧
    skip_bom ⟨[], [0xef, 0xbb, 0xbf] ++ bytes "[Event \"x\"]\n\n*\n"⟩ =
      (⟨[], bytes "[Event \"x\"]\n\n*\n"⟩, .ok ()) ∧
    (read_game SkipVisitor ()
        ⟨[.chunk (bytes "[A \"x" ++ [0xef, 0xbb, 0xbf] ++ bytes "y\"]\n\n\n" ++
          [0xef, 0xbb, 0xbf] ++ bytes "[Event \"x\"]\n\n*\n")], []⟩).1.2.2 =
      [Event.beginGame, Event.beginHeaders,
       Event.header (bytes "A") (bytes "x" ++ [0xef, 0xbb, 0xbf] ++ bytes "y"),
       Event.endHeaders, Event.endGame] := by
  exact ⟨fun buf => skip_bom_nil_of_bom buf,
    fun buf h => skip_bom_nil_of_ne h,
    by decide, by decide⟩

/-- C1 (amended) witness: the amended theorem applied at a concrete buffer
without a leading byte-order mark. -/
theorem C1_bom_amended_witness :
    (bytes "[E").take 3 ≠ [0xef, 0xbb, 0xbf] ∧
    skip_bom ⟨[], bytes "[E"⟩ = (⟨[], bytes "[E"⟩, .ok ()) :=
  ⟨by decide, C1_bom_amended.2.1 (bytes "[E") (by decide)⟩

/-- C3 (code evaluated at the failing input): the I/O error delivered while
skipping the `%`-comment line inside the move-text skip-scan is discarded.
The first conjunct shows the inner `skip_until` call really returns the
error; the second shows the whole `read_game` on the same source nonetheless
returns `Ok(Some(..))` with a complete event trace, contradicting the claim
that every I/O error is propagated as an `Err` result.  (reader.rs line 210
calls `skip_until` without `?`; the adjacent `;` branch at line 204 does
propagate.) -/
theorem C3_io_error_swallowed :
    skip_until lf ⟨[.ioError 7], bytes "a"⟩ = (⟨[], bytes "a"⟩, .error 7) ∧
    read_game SkipVisitor ()
      ⟨[.chunk (bytes "[E \"v\"]\n\n%a"), .chunk [], .chunk [], .chunk [],
        .chunk [], .chunk [], .chunk [], .chunk [], .ioError 7], []⟩ =
      ((⟨[], []⟩, (),
        [Event.beginGame, Event.beginHeaders, Event.header (bytes "E") (bytes "v"),
         Event.endHeaders, Event.endGame]),
       .ok (some ())) := by
  refine ⟨by decide, by decide⟩

/-- C6: when the input is exhausted after the BOM skip and the
whitespace/comment skip — `fill_buffer` reports no bytes available —
`read_game` returns `Ok(None)`, never an error, and invokes no visitor hook:
the trace is empty and the visitor state is returned untouched. -/
theorem C6_exhausted_returns_none {σ ρ : Type} (V : Visitor σ ρ) (v : σ)
    {s s₁ s₂ s₃ : Reader}
    (hbom : skip_bom s = (s₁, .ok ()))
    (hws : skip_whitespace s₁ = (s₂, .ok ()))
    (hfb : fill_buffer s₂ = (s₃, .ok false)) :
    read_game V v s = ((s₃, v, []), .ok none) := by
  unfold read_game
  rw [hbom]
  dsimp only
  rw [hws]
  dsimp only
  rw [hfb]

/-- C6 witness: a whitespace-and-comment-only source ends with `Ok(None)`
and an empty trace. -/
theorem C6_exhausted_returns_none_witness :
    skip_bom ⟨[.chunk (bytes "  \n% trailing comment")], []⟩ =
      (⟨[], bytes "  \n% trailing comment"⟩, .ok ()) ∧
    skip_whitespace ⟨[], bytes "  \n% trailing comment"⟩ = (⟨[], []⟩, .ok ()) ∧
    fill_buffer ⟨[], ([] : List Byte)⟩ = (⟨[], []⟩, .ok false) ∧
    read_game SkipVisitor () ⟨[.chunk (bytes "  \n% trailing comment")], []⟩ =
      ((⟨[], []⟩, (), []), .ok none) := by
  have h1 : skip_bom ⟨[.chunk (bytes "  \n% trailing comment")], []⟩ =
      (⟨[], bytes "  \n% trailing comment"⟩, .ok ()) := by decide
  have h2 : skip_whitespace ⟨[], bytes "  \n% trailing comment"⟩ = (⟨[], []⟩, .ok ()) := by decide
  have h3 : fill_buffer ⟨[], ([] : List Byte)⟩ = (⟨[], []⟩, .ok false) := by decide
  exact ⟨h1, h2, h3, C6_exhausted_returns_none SkipVisitor () h1 h2 h3⟩

/-- C7: invoking `fill_buffer` when the buffer already holds at least
`BUFFER_SIZE` (8192) unread bytes performs no read — source and buffer are
returned unchanged — and reports bytes available; and it reports `false`
only when the buffer was and stays empty and the next read on the source
delivers zero bytes (true end of input in this model). -/
theorem C7_fill_buffer_full_no_io :
    (∀ s : Reader, BUFFER_SIZE ≤ s.buffer.length → fill_buffer s = (s, .ok true)) ∧
    (∀ s s' : Reader, fill_buffer s = (s', .ok false) →
      s'.buffer = [] ∧ s.buffer = [] ∧
        (s.inner = [] ∨ ∃ rest, s.inner = ReadEvent.chunk [] :: rest)) :=
  ⟨fun _ h => fill_full h, fun _ _ h => fill_false h⟩

/-- C7 witness: a buffer holding exactly one full chunk is left untouched
with `true` reported; an empty reader reports `false`. -/
theorem C7_fill_buffer_full_no_io_witness :
    (BUFFER_SIZE ≤ (List.replicate 8192 (0 : Byte)).length ∧
      fill_buffer ⟨[.ioError 3], List.replicate 8192 (0 : Byte)⟩ =
        (⟨[.ioError 3], List.replicate 8192 (0 : Byte)⟩, .ok true)) ∧
    (fill_buffer ⟨[], ([] : List Byte)⟩ = (⟨[], []⟩, .ok false) ∧
      ([] : List Byte) = [] ∧ ([] : List Byte) = [] ∧
        (([] : List ReadEvent) = [] ∨ ∃ rest, ([] : List ReadEvent) = ReadEvent.chunk [] :: rest)) := by
  have hlen : BUFFER_SIZE ≤ (List.replicate 8192 (0 : Byte)).length := by
    rw [List.length_replicate]
    exact le_refl _
  have hff : fill_buffer ⟨[], ([] : List Byte)⟩ = (⟨[], []⟩, .ok false) := by decide
  exact ⟨⟨hlen, C7_fill_buffer_full_no_io.1 ⟨[.ioError 3], List.replicate 8192 (0 : Byte)⟩ hlen⟩,
    hff, C7_fill_buffer_full_no_io.2 ⟨[], []⟩ ⟨[], []⟩ hff⟩

/-- C9 (code evaluated at the failing input): `FilteringVisitor::end_headers`
returns `Skip(false)` when `should_write` is false — not the abandon-the-game
signal `Skip(true)` that the claim (and the function's own comment) describe
and that the reference `SkipVisitor` returns — and returns `Skip(true)` when
the flag is still true.  The signals are exactly inverted. -/
theorem C9_filtering_end_headers_inverted :
    FilteringVisitor.end_headers false = false ∧
    FilteringVisitor.end_headers true = true ∧
    SkipVisitor.end_headers () = ((), true) := by
  refine ⟨rfl, rfl, rfl⟩

/-- C4: in the header-value scan a backslash and the byte immediately after
it are skipped as one escape pair, so an escaped quote or backslash never
terminates the value early (first conjunct: reaching a backslash, the scan
resumes two bytes further on regardless of what the escaped byte is); and
for the input `[Event "A \"B\" C"]` the header hook receives the value
bytes `A \"B\" C` verbatim, with no unescaping performed (second
conjunct). -/
theorem C4_escape_pair :
    (∀ (bs u t : List Byte) (c2 : Byte) (rq : Nat),
      (∀ x ∈ u, x ≠ bslash ∧ x ≠ quote ∧ x ≠ lf) →
      bs.drop rq = u ++ bslash :: c2 :: t →
      scanValue bs rq = scanValue bs (min (rq + u.length + 2) bs.length)) ∧
    read_game SkipVisitor () ⟨[.chunk (bytes "[Event \"A \\\"B\\\" C\"]\n")], []⟩ =
      ((⟨[], []⟩, (),
        [Event.beginGame, Event.beginHeaders,
         Event.header (bytes "Event") (bytes "A \\\"B\\\" C"),
         Event.endHeaders, Event.endGame]),
       .ok (some ())) := by
  constructor
  · intro bs u t c2 rq hu hdrop
    have hne : bs.drop rq ≠ [] := by
      rw [hdrop]
      simp
    have hrq : rq < bs.length := by
      by_contra hcon
      exact hne (List.drop_eq_nil_of_le (by omega))
    show scanValueF (bs.length + 1 - rq) bs rq = _
    rw [show bs.length + 1 - rq = (bs.length - rq) + 1 from by omega]
    simp only [scanValueF]
    rw [hdrop, memchr3_append_plain hu, memchr3_cons_hit (Or.inl rfl)]
    simp only [Option.map_some']
    have hbs : bs.getD (rq + (0 + u.length)) 0 = bslash := by
      have h1 := getD_drop bs rq (0 + u.length) 0
      rw [hdrop] at h1
      rw [← h1, show 0 + u.length = u.length + 0 from by omega, getD_append_add]
      rfl
    rw [if_neg (by rw [hbs]; decide), if_neg (by rw [hbs]; decide)]
    rw [scanValueF_eq (by omega)]
    rw [show rq + (0 + u.length) + 2 = rq + u.length + 2 from by omega]
  · decide

/-- C4 witness: the escape-pair conjunct applied at the concrete buffer
`\\""` from position 0: the scan jumps over the escaped quote and both
sides evaluate to the same scan result. -/
theorem C4_escape_pair_witness :
    (∀ x ∈ ([] : List Byte), x ≠ bslash ∧ x ≠ quote ∧ x ≠ lf) ∧
    ([bslash, quote, quote] : List Byte).drop 0 = [] ++ bslash :: quote :: [quote] ∧
    scanValue [bslash, quote, quote] 0 =
      scanValue [bslash, quote, quote] (min (0 + ([] : List Byte).length + 2) ([bslash, quote, quote] : List Byte).length) :=
  ⟨by decide, by decide,
   C4_escape_pair.1 [bslash, quote, quote] [] [quote] quote 0 (by decide) (by decide)⟩

/-- C5: a header line that opens with `[` and reaches a line feed before any
quote is recovered, not fatal: the header hook fires with the full bytes
between `[` and the line feed as the tag name and an empty value, the line
(through its line feed) is consumed, and header-block processing simply
continues on the remaining input. -/
theorem C5_malformed_header_recovered {σ ρ : Type} (V : Visitor σ ρ)
    {s : Reader} {src' : List ReadEvent} {bs : List Byte} {i : Nat}
    (v : σ) (tr : List Event)
    (hfill : fill_buffer s = (⟨src', lbracket :: bs⟩, .ok true))
    (hm : memchr2 quote lf bs = some i)
    (hlf : bs.getD i 0 = lf) :
    read_headers V s v tr =
      read_headers V ⟨src', bs.drop (i + 1)⟩ (V.header v (bs.take i) [])
        (tr ++ [Event.header (bs.take i) []]) := by
  show read_headersF V (s.wt + 1) s v tr = _
  simp only [read_headersF]
  rw [hfill]
  dsimp only
  rw [if_pos rfl, hm]
  dsimp only
  rw [if_neg (by rw [hlf]; decide)]
  have hiw := memchr2_some_lt hm
  have hwt := fill_wt hfill
  simp only [Reader.wt, List.length_cons] at hwt
  refine read_headersF_eq ?_
  simp only [Reader.wt, List.length_drop]
  omega

/-- C5 witness: the malformed line `[BadTag some text` followed by a line
feed yields the full tag name, an empty value, and processing continues on
the rest. -/
theorem C5_malformed_header_recovered_witness :
    fill_buffer ⟨[.chunk (bytes "[BadTag some text\nrest")], []⟩ =
      (⟨[], lbracket :: bytes "BadTag some text\nrest"⟩, .ok true) ∧
    memchr2 quote lf (bytes "BadTag some text\nrest") = some 16 ∧
    (bytes "BadTag some text\nrest").getD 16 0 = lf ∧
    read_headers SkipVisitor ⟨[.chunk (bytes "[BadTag some text\nrest")], []⟩ () [] =
      read_headers SkipVisitor ⟨[], (bytes "BadTag some text\nrest").drop 17⟩
        (SkipVisitor.header () ((bytes "BadTag some text\nrest").take 16) [])
        ([] ++ [Event.header ((bytes "BadTag some text\nrest").take 16) []]) := by
  have h1 : fill_buffer ⟨[.chunk (bytes "[BadTag some text\nrest")], []⟩ =
      (⟨[], lbracket :: bytes "BadTag some text\nrest"⟩, .ok true) := by decide
  have h2 : memchr2 quote lf (bytes "BadTag some text\nrest") = some 16 := by decide
  have h3 : (bytes "BadTag some text\nrest").getD 16 0 = lf := by decide
  exact ⟨h1, h2, h3, C5_malformed_header_recovered SkipVisitor () [] h1 h2 h3⟩

/-- C8: a source holding two well-formed games separated by exactly one
blank line yields, over two successive `read_game` calls, exactly one
`begin_game`/`end_game` pair per call, with each game\'s header hooks fired
inside its own call, in document order: the first call stops at the blank
line leaving the second game\'s bytes buffered, and the second call consumes
the rest. -/
theorem C8_two_games {σ ρ : Type} (V : Visitor σ ρ) (v : σ)
    (hs₁ hs₂ : List (List Byte × List Byte)) (c₁ : Byte) (m₁' : List Byte)
    (c₂ : Byte) (m₂' : List Byte)
    (hplain₁ : ∀ p ∈ hs₁, (∀ x ∈ p.1, Plain x) ∧ (∀ x ∈ p.2, Plain x))
    (hplain₂ : ∀ p ∈ hs₂, (∀ x ∈ p.1, Plain x) ∧ (∀ x ∈ p.2, Plain x))
    (hm₁ : ∀ b ∈ c₁ :: m₁', Plain b)
    (hm₂ : ∀ b ∈ c₂ :: m₂', Plain b) :
    read_game V v ⟨[.chunk (gameBytes hs₁ (c₁ :: m₁') ++ lf :: gameBytes hs₂ (c₂ :: m₂'))], []⟩ =
      ((⟨[], gameBytes hs₂ (c₂ :: m₂')⟩,
        (V.end_game (V.end_headers (foldHeaders V (V.begin_headers (V.begin_game v)) hs₁)).1).1,
        [Event.beginGame, Event.beginHeaders] ++ (hs₁.map fun p => Event.header p.1 p.2) ++
          [Event.endHeaders, Event.endGame]),
       .ok (some (V.end_game (V.end_headers (foldHeaders V (V.begin_headers (V.begin_game v)) hs₁)).1).2)) ∧
    (∀ v₂ : σ,
      read_game V v₂ ⟨[], gameBytes hs₂ (c₂ :: m₂')⟩ =
        ((⟨[], []⟩,
          (V.end_game (V.end_headers (foldHeaders V (V.begin_headers (V.begin_game v₂)) hs₂)).1).1,
          [Event.beginGame, Event.beginHeaders] ++ (hs₂.map fun p => Event.header p.1 p.2) ++
            [Event.endHeaders, Event.endGame]),
         .ok (some (V.end_game (V.end_headers (foldHeaders V (V.begin_headers (V.begin_game v₂)) hs₂)).1).2))) := by
  constructor
  · obtain ⟨d, t, hdt, hd1, hd2, hd3⟩ := gameBytes_head hs₂ hm₂
    rw [read_game_chunk, hdt]
    exact read_game_mid V v hs₁ hplain₁ hm₁ hd1 hd2 hd3
  · intro v₂
    exact read_game_last V v₂ hs₂ hplain₂ hm₂

/-- C8 witness: two one-header games (`[A "x"]` with move text `e4`, then
`[B "y"]` with move text `d4`) separated by one blank line produce the two
expected event traces over two calls. -/
theorem C8_two_games_witness :
    read_game SkipVisitor ()
        ⟨[.chunk (gameBytes [(bytes "A", bytes "x")] (101 :: [52]) ++
            lf :: gameBytes [(bytes "B", bytes "y")] (100 :: [52]))], []⟩ =
      ((⟨[], gameBytes [(bytes "B", bytes "y")] (100 :: [52])⟩,
        (SkipVisitor.end_game (SkipVisitor.end_headers
          (foldHeaders SkipVisitor (SkipVisitor.begin_headers (SkipVisitor.begin_game ()))
            [(bytes "A", bytes "x")])).1).1,
        [Event.beginGame, Event.beginHeaders] ++
          ([(bytes "A", bytes "x")].map fun p => Event.header p.1 p.2) ++
          [Event.endHeaders, Event.endGame]),
       .ok (some (SkipVisitor.end_game (SkipVisitor.end_headers
          (foldHeaders SkipVisitor (SkipVisitor.begin_headers (SkipVisitor.begin_game ()))
            [(bytes "A", bytes "x")])).1).2)) ∧
    (∀ v₂ : Unit,
      read_game SkipVisitor v₂ ⟨[], gameBytes [(bytes "B", bytes "y")] (100 :: [52])⟩ =
        ((⟨[], []⟩,
          (SkipVisitor.end_game (SkipVisitor.end_headers
            (foldHeaders SkipVisitor (SkipVisitor.begin_headers (SkipVisitor.begin_game v₂))
              [(bytes "B", bytes "y")])).1).1,
          [Event.beginGame, Event.beginHeaders] ++
            ([(bytes "B", bytes "y")].map fun p => Event.header p.1 p.2) ++
            [Event.endHeaders, Event.endGame]),
         .ok (some (SkipVisitor.end_game (SkipVisitor.end_headers
            (foldHeaders SkipVisitor (SkipVisitor.begin_headers (SkipVisitor.begin_game v₂))
              [(bytes "B", bytes "y")])).1).2))) :=
  C8_two_games SkipVisitor () [(bytes "A", bytes "x")] [(bytes "B", bytes "y")]
    101 [52] 100 [52] (by decide) (by decide) (by decide) (by decide)

/-- C10: while scanning a quoted header value, if none of backslash, quote
or line feed occurs in the rest of the buffered bytes, the scan stops at the
end of the buffered data (first conjunct), the header hook receives exactly
the remaining buffered bytes as the value — silently truncated at the
buffer boundary, with no mid-value refill — and processing resumes with an
empty buffer, reading from the source only afterwards, in `skip_ket`
(second conjunct). -/
theorem C10_value_truncated_at_buffer_end {σ ρ : Type} (V : Visitor σ ρ)
    (v : σ) (tr : List Event) {s : Reader} {src' : List ReadEvent}
    {bs : List Byte} {i : Nat}
    (hfill : fill_buffer s = (⟨src', lbracket :: bs⟩, .ok true))
    (hm : memchr2 quote lf bs = some i)
    (hq : bs.getD i 0 = quote)
    (hnone : memchr3 bslash quote lf (bs.drop (i + 1)) = none) :
    scanValue bs (i + 1) = (bs.length, bs.length) ∧
    read_headers V s v tr =
      (match skip_ket ⟨src', []⟩ with
       | (s₃, .error e) =>
         ((s₃,
           V.header v (bs.take (if 0 < i ∧ bs.getD (i - 1) 0 = spc then i - 1 else i))
             (bs.drop (i + 1)),
           tr ++ [Event.header
             (bs.take (if 0 < i ∧ bs.getD (i - 1) 0 = spc then i - 1 else i))
             (bs.drop (i + 1))]),
          .error e)
       | (s₃, .ok _) =>
         read_headers V s₃
           (V.header v (bs.take (if 0 < i ∧ bs.getD (i - 1) 0 = spc then i - 1 else i))
             (bs.drop (i + 1)))
           (tr ++ [Event.header
             (bs.take (if 0 < i ∧ bs.getD (i - 1) 0 = spc then i - 1 else i))
             (bs.drop (i + 1))])) := by
  have hsv : scanValue bs (i + 1) = (bs.length, bs.length) := scanValue_none hnone
  refine ⟨hsv, ?_⟩
  show read_headersF V (s.wt + 1) s v tr = _
  simp only [read_headersF]
  rw [hfill]
  dsimp only
  rw [if_pos rfl, hm]
  dsimp only
  rw [if_pos hq, hsv]
  dsimp only
  have hval : (bs.drop (i + 1)).take (bs.length - (i + 1)) = bs.drop (i + 1) := by
    rw [show bs.length - (i + 1) = (bs.drop (i + 1)).length from by simp, List.take_length]
  rw [hval, List.drop_length]
  have hwt := fill_wt hfill
  simp only [Reader.wt, List.length_cons] at hwt
  rcases hket : skip_ket ⟨src', []⟩ with ⟨s₃, r₃⟩
  have hkw := skip_ket_wt hket
  simp only [Reader.wt, List.length_nil] at hkw
  cases r₃ with
  | error e => rfl
  | ok u =>
    cases u
    dsimp only
    refine read_headersF_eq ?_
    simp only [Reader.wt]
    omega

/-- C10 witness: the buffer `[K "abc` (the closing quote lies beyond the
buffered data, the rest of the source an I/O error) yields the header value
`abc` truncated at the buffer end, and `skip_ket` then hits the source. -/
theorem C10_value_truncated_at_buffer_end_witness :
    fill_buffer ⟨[.chunk (bytes "[K \"abc"), .chunk [], .ioError 5], []⟩ =
      (⟨[.ioError 5], lbracket :: bytes "K \"abc"⟩, .ok true) ∧
    memchr2 quote lf (bytes "K \"abc") = some 2 ∧
    (bytes "K \"abc").getD 2 0 = quote ∧
    memchr3 bslash quote lf ((bytes "K \"abc").drop (2 + 1)) = none ∧
    (scanValue (bytes "K \"abc") (2 + 1) =
        ((bytes "K \"abc").length, (bytes "K \"abc").length) ∧
     read_headers SkipVisitor ⟨[.chunk (bytes "[K \"abc"), .chunk [], .ioError 5], []⟩ () [] =
      (match skip_ket ⟨[.ioError 5], []⟩ with
       | (s₃, .error e) =>
         ((s₃,
           SkipVisitor.header ()
             ((bytes "K \"abc").take
               (if 0 < 2 ∧ (bytes "K \"abc").getD (2 - 1) 0 = spc then 2 - 1 else 2))
             ((bytes "K \"abc").drop (2 + 1)),
           [] ++ [Event.header
             ((bytes "K \"abc").take
               (if 0 < 2 ∧ (bytes "K \"abc").getD (2 - 1) 0 = spc then 2 - 1 else 2))
             ((bytes "K \"abc").drop (2 + 1))]),
          .error e)
       | (s₃, .ok _) =>
         read_headers SkipVisitor s₃
           (SkipVisitor.header ()
             ((bytes "K \"abc").take
               (if 0 < 2 ∧ (bytes "K \"abc").getD (2 - 1) 0 = spc then 2 - 1 else 2))
             ((bytes "K \"abc").drop (2 + 1)))
           ([] ++ [Event.header
             ((bytes "K \"abc").take
               (if 0 < 2 ∧ (bytes "K \"abc").getD (2 - 1) 0 = spc then 2 - 1 else 2))
             ((bytes "K \"abc").drop (2 + 1))]))) := by
  have h1 : fill_buffer ⟨[.chunk (bytes "[K \"abc"), .chunk [], .ioError 5], []⟩ =
      (⟨[.ioError 5], lbracket :: bytes "K \"abc"⟩, .ok true) := by decide
  have h2 : memchr2 quote lf (bytes "K \"abc") = some 2 := by decide
  have h3 : (bytes "K \"abc").getD 2 0 = quote := by decide
  have h4 : memchr3 bslash quote lf ((bytes "K \"abc").drop (2 + 1)) = none := by decide
  exact ⟨h1, h2, h3, h4,
    C10_value_truncated_at_buffer_end SkipVisitor () [] h1 h2 h3 h4⟩

end Pgn
